import Mathlib

/-!
# Verification of the auditcounts streaming merge-join and classifier

This development is a shallow embedding of `lib/job-assets/dcaudit/auditcounts.js`:
the record parser (`SplitStream`), the N-way sorted merge join (`JoinStream`) and
the diagnostic classifier (`AuditStream`).  JavaScript machine numbers are modelled
exactly (as `Int` / scaled decimal pairs); the programs under verification only deal
with small integer counts, where IEEE doubles are exact.  JavaScript strings are
modelled as Lean `String`s compared by code points, which agrees with the JS
code-unit comparison on all inputs whose characters lie in the Basic Multilingual
Plane (in this program the keys are JSON string literals from text files).
-/

namespace Auditcounts

/-! ## JavaScript character classes

`jsWsChar` is the set of characters matched by the JS regular expression `\s`
and stripped by `String.prototype.trim` (ECMA-262 WhiteSpace ∪ LineTerminator):
TAB..CR, space, NBSP, U+1680, U+2000..U+200A, U+2028, U+2029, U+202F, U+205F,
U+3000 and U+FEFF. -/
def jsWsChar (c : Char) : Bool :=
  let n := c.toNat
  (9 ≤ n && n ≤ 13) || n = 32 || n = 160 || n = 5760 || (8192 ≤ n && n ≤ 8202) ||
    n = 8232 || n = 8233 || n = 8239 || n = 8287 || n = 12288 || n = 65279

/-- Decimal digit `0`..`9`. -/
def decDigit (c : Char) : Bool :=
  48 ≤ c.toNat && c.toNat ≤ 57

/-- Numeric value of a decimal digit character. -/
def digitVal (c : Char) : Nat := c.toNat - 48

/-- Value of a digit string (most significant first), the usual left fold. -/
def digitsVal (l : List Char) : Nat :=
  l.foldl (fun a c => 10 * a + digitVal c) 0

/-- Hexadecimal digit. -/
def hexDigit (c : Char) : Bool :=
  (48 ≤ c.toNat && c.toNat ≤ 57) || (97 ≤ c.toNat && c.toNat ≤ 102) ||
    (65 ≤ c.toNat && c.toNat ≤ 70)

/-- Numeric value of a hexadecimal digit character. -/
def hexVal (c : Char) : Nat :=
  if 97 ≤ c.toNat then c.toNat - 87
  else if 65 ≤ c.toNat then c.toNat - 55
  else c.toNat - 48

/-- Value of a hex digit string. -/
def hexValList (l : List Char) : Nat :=
  l.foldl (fun a c => 16 * a + hexVal c) 0

/-! ## JavaScript string comparison

JS `<` on two strings compares code units lexicographically.  We model it on the
underlying character lists. -/

def lexLt : List Char → List Char → Bool
  | [], [] => false
  | [], _ :: _ => true
  | _ :: _, [] => false
  | a :: as, b :: bs =>
    if a.toNat < b.toNat then true
    else if a.toNat = b.toNat then lexLt as bs
    else false

/-- JS string comparison `a < b`. -/
def strLt (a b : String) : Bool := lexLt a.data b.data

/-- `a ≤ b` for JS strings, i.e. `¬ (b < a)`. -/
def strLe (a b : String) : Bool := !(strLt b a)

theorem lexLt_irrefl (l : List Char) : lexLt l l = false := by
  induction l with
  | nil => rfl
  | cons a as ih => simp [lexLt, ih]

theorem lexLt_trans {a b c : List Char} (h₁ : lexLt a b = true)
    (h₂ : lexLt b c = true) : lexLt a c = true := by
  induction a generalizing b c with
  | nil =>
    cases c with
    | nil =>
      cases b with
      | nil => exact absurd h₁ (by simp [lexLt])
      | cons y ys => exact absurd h₂ (by simp [lexLt])
    | cons z zs => simp [lexLt]
  | cons x xs ih =>
    cases b with
    | nil => exact absurd h₁ (by simp [lexLt])
    | cons y ys =>
      cases c with
      | nil => exact absurd h₂ (by simp [lexLt])
      | cons z zs =>
        simp only [lexLt] at h₁ h₂ ⊢
        by_cases hxy : x.toNat < y.toNat
        · by_cases hyz : y.toNat < z.toNat
          · simp [Nat.lt_trans hxy hyz]
          · rw [if_neg hyz] at h₂
            by_cases hyz' : y.toNat = z.toNat
            · simp [show x.toNat < z.toNat by omega]
            · rw [if_neg hyz'] at h₂; exact absurd h₂ (by simp)
        · rw [if_neg hxy] at h₁
          by_cases hxy' : x.toNat = y.toNat
          · rw [if_pos hxy'] at h₁
            by_cases hyz : y.toNat < z.toNat
            · simp [show x.toNat < z.toNat by omega]
            · rw [if_neg hyz] at h₂
              by_cases hyz' : y.toNat = z.toNat
              · rw [if_pos hyz'] at h₂
                rw [if_neg (show ¬ x.toNat < z.toNat by omega),
                  if_pos (show x.toNat = z.toNat by omega)]
                exact ih h₁ h₂
              · rw [if_neg hyz'] at h₂; exact absurd h₂ (by simp)
          · rw [if_neg hxy'] at h₁; exact absurd h₁ (by simp)

theorem lexLt_asymm {a b : List Char} (h : lexLt a b = true) :
    lexLt b a = false := by
  by_contra hcon
  have hba : lexLt b a = true := by
    cases hx : lexLt b a with
    | true => rfl
    | false => exact absurd hx hcon
  have := lexLt_trans h hba
  rw [lexLt_irrefl] at this
  exact Bool.false_ne_true this

theorem lexLt_connex {a b : List Char} (h₁ : lexLt a b = false)
    (h₂ : lexLt b a = false) : a = b := by
  induction a generalizing b with
  | nil =>
    cases b with
    | nil => rfl
    | cons y ys => simp [lexLt] at h₁
  | cons x xs ih =>
    cases b with
    | nil => simp [lexLt] at h₂
    | cons y ys =>
      simp only [lexLt] at h₁ h₂
      by_cases hxy : x.toNat < y.toNat
      · simp [hxy] at h₁
      · by_cases hyx : y.toNat < x.toNat
        · simp [hyx] at h₂
        · have hxy' : x.toNat = y.toNat := by omega
          rw [if_neg hxy, if_pos hxy'] at h₁
          rw [if_neg hyx, if_pos hxy'.symm] at h₂
          have hx : x = y := Char.ext (UInt32.ext hxy')
          rw [hx, ih h₁ h₂]

theorem strLt_irrefl (a : String) : strLt a a = false := lexLt_irrefl a.data

theorem strLt_trans {a b c : String} (h₁ : strLt a b = true)
    (h₂ : strLt b c = true) : strLt a c = true := lexLt_trans h₁ h₂

theorem strLt_asymm {a b : String} (h : strLt a b = true) :
    strLt b a = false := lexLt_asymm h

theorem strLt_connex {a b : String} (h₁ : strLt a b = false)
    (h₂ : strLt b a = false) : a = b := by
  have h := lexLt_connex h₁ h₂
  cases a; cases b; exact congrArg String.mk h

/-- Trichotomy for the JS string order. -/
theorem strLt_tri (a b : String) :
    strLt a b = true ∨ strLt b a = true ∨ a = b := by
  cases hab : strLt a b with
  | true => exact Or.inl rfl
  | false =>
    cases hba : strLt b a with
    | true => exact Or.inr (Or.inl rfl)
    | false => exact Or.inr (Or.inr (strLt_connex hab hba))

theorem strLt_of_lt_of_not_lt {a b c : String} (h₁ : strLt a b = true)
    (h₂ : strLt c b = false) : strLt a c = true := by
  rcases strLt_tri a c with h | h | h
  · exact h
  · exact absurd (strLt_trans h h₁) (by simp [h₂])
  · subst h; exact absurd h₁ (by simp [h₂])

theorem strLt_false_trans {a b c : String} (h₁ : strLt b a = false)
    (h₂ : strLt c b = false) : strLt c a = false := by
  cases hca : strLt c a with
  | false => rfl
  | true =>
    rcases strLt_tri a b with h | h | h
    · exact absurd (strLt_trans hca h) (by simp [h₂])
    · exact absurd h (by simp [h₁])
    · subst h; exact absurd hca (by simp [h₂])

/-! ## JavaScript number conversions

`SplitStream._transform` validates field 1 with

    count = parseInt(parts[0], 10);
    if (isNaN(count) || parts[0].toString() != count) { warn...; }

`parts[0] != count` is JS abstract (loose) equality between a string and a
number, which converts the *string* to a number (`ToNumber`) and compares
numerically.  We model `parseInt(·, 10)` and `ToNumber` exactly per ECMA-262
(on the exact-arithmetic level: doubles are modelled as exact scaled decimals,
faithful for all values the program can see below 2^53). -/

/-- Strip JS whitespace from both ends (`String.prototype.trim` and the
whitespace skipping of `ToNumber`). -/
def trimWs (l : List Char) : List Char :=
  ((l.dropWhile jsWsChar).reverse.dropWhile jsWsChar).reverse

/-- Longest leading run of decimal digits, valued; `none` if there is none.
This is the digit-consuming core of `parseInt`. -/
def parseIntDigitsVal (l : List Char) : Option Nat :=
  let ds := l.takeWhile decDigit
  if ds.isEmpty then none else some (digitsVal ds)

/-- `parseInt(s, 10)`: skip leading whitespace, optional sign, then the longest
digit run; `none` models NaN.  With an explicit radix of 10 there is no hex
detection, and trailing garbage is ignored. -/
def jsParseIntCore (l : List Char) : Option Int :=
  match l.dropWhile jsWsChar with
  | [] => none
  | c :: r =>
    if c = '+' then (parseIntDigitsVal r).map (fun n => (n : Int))
    else if c = '-' then (parseIntDigitsVal r).map (fun n => -(n : Int))
    else (parseIntDigitsVal (c :: r)).map (fun n => (n : Int))

def jsParseInt10 (s : String) : Option Int := jsParseIntCore s.data

/-- A JS number as produced by `ToNumber` of a string, modelled exactly:
`val m e` denotes the real number `m * 10 ^ e`. -/
inductive JsNum : Type
  | nan : JsNum
  | inf (neg : Bool) : JsNum
  | val (m : Int) (e : Int) : JsNum
deriving DecidableEq, Repr

/-- Abstract equality between a `ToNumber` result and an integer: NaN and the
infinities compare unequal to every integer, `m * 10 ^ e` compares by value. -/
def jsNumEqInt (x : JsNum) (n : Int) : Bool :=
  match x with
  | .val m e => if 0 ≤ e then m * 10 ^ e.toNat == n else m == n * 10 ^ (-e).toNat
  | _ => false

def binDigit (c : Char) : Bool := c = '0' || c = '1'

def binValList (l : List Char) : Nat :=
  l.foldl (fun a c => 2 * a + digitVal c) 0

def octDigit (c : Char) : Bool := 48 ≤ c.toNat && c.toNat ≤ 55

def octValList (l : List Char) : Nat :=
  l.foldl (fun a c => 8 * a + digitVal c) 0

/-- A radix literal body (after `0x` / `0b` / `0o`): all remaining characters
must be digits of the radix and there must be at least one. -/
def radixVal (digOk : Char → Bool) (value : List Char → Nat) (r : List Char) : JsNum :=
  if !r.isEmpty && r.all digOk then .val (value r) 0 else .nan

/-- Exponent digits with their sign; `none` if empty or not all digits. -/
def expDigits (sgn : Int) (r : List Char) : Option Int :=
  if !r.isEmpty && r.all decDigit then some (sgn * digitsVal r) else none

/-- `ExponentPart` body after the `e`/`E`: optional sign then digits. -/
def expValue (l : List Char) : Option Int :=
  match l with
  | [] => none
  | c :: r =>
    if c = '+' then expDigits 1 r
    else if c = '-' then expDigits (-1) r
    else expDigits 1 (c :: r)

/-- Assemble a `StrUnsignedDecimalLiteral` from its integer digits, fraction
digits and what follows them (either nothing or an exponent part). -/
def mkDec (sgn : Int) (ids fds rest : List Char) : JsNum :=
  if ids.isEmpty && fds.isEmpty then .nan
  else
    match rest with
    | [] => .val (sgn * (digitsVal (ids ++ fds) : Int)) (-(fds.length : Int))
    | e :: r =>
      if e = 'e' ∨ e = 'E' then
        match expValue r with
        | some ev => .val (sgn * (digitsVal (ids ++ fds) : Int)) (ev - fds.length)
        | none => .nan
      else .nan

/-- `StrUnsignedDecimalLiteral` with an already-applied sign: `Infinity`, or
`digits [. digits] [exp]`, or `. digits [exp]`. -/
def decLiteralVal (sgn : Int) (cs : List Char) : JsNum :=
  if cs = "Infinity".data then .inf (sgn < 0)
  else
    let ids := cs.takeWhile decDigit
    let r1 := cs.dropWhile decDigit
    match r1 with
    | '.' :: r2 => mkDec sgn ids (r2.takeWhile decDigit) (r2.dropWhile decDigit)
    | _ => mkDec sgn ids [] r1

/-- An unsigned numeric literal: `0x`/`0X`, `0b`/`0B`, `0o`/`0O` radix forms
(only without a sign), else a decimal literal. -/
def radixOrDec (cs : List Char) : JsNum :=
  match cs with
  | c0 :: m :: r =>
    if c0 = '0' then
      if m = 'x' ∨ m = 'X' then radixVal hexDigit hexValList r
      else if m = 'b' ∨ m = 'B' then radixVal binDigit binValList r
      else if m = 'o' ∨ m = 'O' then radixVal octDigit octValList r
      else decLiteralVal 1 cs
    else decLiteralVal 1 cs
  | _ => decLiteralVal 1 cs

/-- `ToNumber` applied to a string (ECMA-262 `StringNumericLiteral`): strip
whitespace; empty means `0`; optional sign (decimal forms only), else a radix
or decimal literal. -/
def jsToNumberCore (l : List Char) : JsNum :=
  match trimWs l with
  | [] => .val 0 0
  | c :: r =>
    if c = '+' then decLiteralVal 1 r
    else if c = '-' then decLiteralVal (-1) r
    else radixOrDec (c :: r)

def jsToNumber (s : String) : JsNum := jsToNumberCore s.data

/-- The field-1 validation of `SplitStream._transform` (auditcounts.js:194-201):
accept iff `parseInt(field, 10)` is not NaN and the loose comparison
`field != count` is false, i.e. `ToNumber(field)` equals the parsed integer. -/
def fieldIntOkCore (l : List Char) : Option Int :=
  match jsParseIntCore l with
  | none => none
  | some n => if jsNumEqInt (jsToNumberCore l) n then some n else none

def fieldIntOk (s : String) : Option Int := fieldIntOkCore s.data

/-- The spec's notion of a canonical non-negative integer: all decimal digits,
non-empty, and no leading zero except for `"0"` itself (this is exactly the
set of strings that re-rendering the parsed integer reproduces). -/
def canonicalNat (l : List Char) : Bool :=
  !l.isEmpty && l.all decDigit && (l.head? ≠ some '0' || l = ['0'])

theorem dropWhile_eq_self_of_all {α : Type} {p : α → Bool} {l : List α}
    (h : ∀ c ∈ l, p c = false) : l.dropWhile p = l := by
  cases l with
  | nil => rfl
  | cons a as => simp [List.dropWhile_cons, h a (by simp)]

theorem decDigit_not_ws {c : Char} (h : decDigit c = true) : jsWsChar c = false := by
  rw [Bool.eq_false_iff]
  intro hws
  simp only [decDigit, Bool.and_eq_true, decide_eq_true_eq] at h
  simp only [jsWsChar, Bool.or_eq_true, Bool.and_eq_true, decide_eq_true_eq] at hws
  omega

theorem decDigit_ne_of_lt {c d : Char} (h : decDigit c = true)
    (hlt : d.toNat < 48 ∨ 57 < d.toNat) : c ≠ d := by
  intro he
  subst he
  simp only [decDigit, Bool.and_eq_true, decide_eq_true_eq] at h
  omega

/-- The integer-field check accepts every non-empty all-digit field, with its
usual decimal value — leading zeros included. -/
theorem fieldIntOkCore_all_digits {l : List Char} (hne : l ≠ [])
    (hd : ∀ c ∈ l, decDigit c = true) :
    fieldIntOkCore l = some (digitsVal l) := by
  have hws : ∀ c ∈ l, jsWsChar c = false := fun c hc => decDigit_not_ws (hd c hc)
  have hdrop : l.dropWhile jsWsChar = l := dropWhile_eq_self_of_all hws
  have htake : l.takeWhile decDigit = l := List.takeWhile_eq_self_iff.mpr hd
  have hdropd : l.dropWhile decDigit = [] := List.dropWhile_eq_nil_iff.mpr hd
  have htrim : trimWs l = l := by
    unfold trimWs
    rw [hdrop, dropWhile_eq_self_of_all (fun c hc => hws c (List.mem_reverse.mp hc)),
      List.reverse_reverse]
  obtain ⟨c, r, rfl⟩ : ∃ c r, l = c :: r := by
    cases l with
    | nil => exact absurd rfl hne
    | cons c r => exact ⟨c, r, rfl⟩
  have hcd : decDigit c = true := hd c (by simp)
  have hplus : c ≠ '+' := decDigit_ne_of_lt hcd (by decide)
  have hminus : c ≠ '-' := decDigit_ne_of_lt hcd (by decide)
  have hpdv : parseIntDigitsVal (c :: r) = some (digitsVal (c :: r)) := by
    unfold parseIntDigitsVal
    rw [htake]
    simp
  have hpi : jsParseIntCore (c :: r) = some ((digitsVal (c :: r) : Int)) := by
    unfold jsParseIntCore
    rw [hdrop]
    dsimp only []
    rw [if_neg hplus, if_neg hminus, hpdv]
    rfl
  have hdec : decLiteralVal 1 (c :: r) = .val (digitsVal (c :: r)) 0 := by
    unfold decLiteralVal
    rw [if_neg (by
      intro he
      have : c = 'I' := by
        have := congrArg (List.head? ·) he
        simpa using this
      exact decDigit_ne_of_lt hcd (by decide) this)]
    dsimp only []
    rw [htake, hdropd]
    unfold mkDec
    simp
  have htn : jsToNumberCore (c :: r) = .val (digitsVal (c :: r)) 0 := by
    unfold jsToNumberCore
    rw [htrim]
    dsimp only []
    rw [if_neg hplus, if_neg hminus]
    cases r with
    | nil => exact hdec
    | cons m rr =>
      have hmd : decDigit m = true := hd m (by simp)
      unfold radixOrDec
      dsimp only []
      by_cases hc0 : c = '0'
      · rw [if_pos hc0,
          if_neg (by
            rintro (he | he) <;> exact decDigit_ne_of_lt hmd (by decide) he),
          if_neg (by
            rintro (he | he) <;> exact decDigit_ne_of_lt hmd (by decide) he),
          if_neg (by
            rintro (he | he) <;> exact decDigit_ne_of_lt hmd (by decide) he)]
        exact hdec
      · rw [if_neg hc0]
        exact hdec
  unfold fieldIntOkCore
  rw [hpi, htn]
  simp [jsNumEqInt]

example : fieldIntOk "5" = some 5 := by decide
example : fieldIntOk "05" = some 5 := by decide
example : fieldIntOk "+5" = some 5 := by decide
example : fieldIntOk "5.0" = some 5 := by decide
example : fieldIntOk "-3" = some (-3) := by decide
example : fieldIntOk "5e2" = none := by decide
example : fieldIntOk "bogus" = none := by decide
example : fieldIntOk "5x" = none := by decide
example : fieldIntOk "0" = some 0 := by decide
example : fieldIntOk "Infinity" = none := by decide
example : fieldIntOk "0x5" = none := by decide
example : fieldIntOk "5.5" = none := by decide

/-! ## JSON.parse, as used by `SplitStream` to validate field 2

The code runs `JSON.parse(parts[1])` purely to *validate* the token (and check
the decoded value is a string); the raw serialized token is what flows
downstream.  We model a validator returning the kind of the top-level value
(enough to decide both the `invalid JSON` and the `not a string` warnings),
plus a separate string-literal decoder used to talk about decoded values. -/

inductive JKind : Type
  | jstring | jnumber | jobject | jarray | jtrue | jfalse | jnull
deriving DecidableEq, Repr

/-- JSON insignificant whitespace (ECMA-404): space, tab, LF, CR. -/
def jsonWs (c : Char) : Bool := c = ' ' || c = '\t' || c = '\n' || c = '\r'

def skipWs (l : List Char) : List Char := l.dropWhile jsonWs

def lbrace : Char := Char.ofNat 123

def rbrace : Char := Char.ofNat 125

/-- Scan a JSON string literal body (after the opening quote); returns the
rest after the closing quote, `none` when malformed. -/
def scanStringBody : List Char → Option (List Char)
  | [] => none
  | c :: r =>
    if c = '"' then some r
    else if c = '\\' then
      match r with
      | [] => none
      | e :: r2 =>
        if e = 'u' then
          match r2 with
          | a :: b :: c2 :: d :: r3 =>
            if hexDigit a && hexDigit b && hexDigit c2 && hexDigit d then
              scanStringBody r3
            else none
          | _ => none
        else if e = '"' || e = '\\' || e = '/' || e = 'b' || e = 'f' || e = 'n' ||
            e = 'r' || e = 't' then
          scanStringBody r2
        else none
    else if c.toNat < 32 then none
    else scanStringBody r

/-- Exponent part of a JSON number (or nothing). -/
def scanExp (l : List Char) : Option (List Char) :=
  match l with
  | c :: r =>
    if c = 'e' || c = 'E' then
      let r1 := match r with
        | c2 :: r2 => if c2 = '+' || c2 = '-' then r2 else r
        | [] => r
      let ds := r1.takeWhile decDigit
      if ds.isEmpty then none else some (r1.dropWhile decDigit)
    else some l
  | [] => some l

/-- Fraction and exponent part of a JSON number. -/
def scanFrac (l : List Char) : Option (List Char) :=
  match l with
  | '.' :: r =>
    let ds := r.takeWhile decDigit
    if ds.isEmpty then none else scanExp (r.dropWhile decDigit)
  | _ => scanExp l

/-- Scan a JSON number (validity only); `l` starts at its first character. -/
def scanNumber (l : List Char) : Option (List Char) :=
  let l1 := match l with
    | c :: r => if c = '-' then r else l
    | [] => l
  match l1 with
  | [] => none
  | c :: r =>
    if c = '0' then scanFrac r
    else if decDigit c then scanFrac (r.dropWhile decDigit)
    else none

/-- Does `l` start with the given literal suffix (used for true/false/null)? -/
def stripLit : List Char → List Char → Option (List Char)
  | [], l => some l
  | _ :: _, [] => none
  | w :: ws, c :: r => if c = w then stripLit ws r else none

mutual

/-- Scan one JSON value, returning its kind and the rest.  The fuel only
bounds nesting/iteration; every recursive call follows the consumption of at
least one character, so `length + 1` fuel never runs out. -/
def scanValue : Nat → List Char → Option (JKind × List Char)
  | 0, _ => none
  | Nat.succ fuel, cs =>
    match cs with
    | [] => none
    | c :: r =>
      if c = '"' then (scanStringBody r).map (fun rest => (JKind.jstring, rest))
      else if c = lbrace then scanObjectBody fuel (skipWs r)
      else if c = '[' then scanArrayBody fuel (skipWs r)
      else if c = 't' then (stripLit "rue".data r).map (fun rest => (JKind.jtrue, rest))
      else if c = 'f' then (stripLit "alse".data r).map (fun rest => (JKind.jfalse, rest))
      else if c = 'n' then (stripLit "ull".data r).map (fun rest => (JKind.jnull, rest))
      else if c = '-' || decDigit c then
        (scanNumber (c :: r)).map (fun rest => (JKind.jnumber, rest))
      else none

/-- Scan an object body: at a member key or the closing brace
(whitespace already skipped). -/
def scanObjectBody : Nat → List Char → Option (JKind × List Char)
  | 0, _ => none
  | Nat.succ fuel, cs =>
    match cs with
    | [] => none
    | c :: r =>
      if c = rbrace then some (JKind.jobject, r)
      else if c = '"' then
        match scanStringBody r with
        | none => none
        | some r1 =>
          match skipWs r1 with
          | [] => none
          | c2 :: r2 =>
            if c2 = ':' then
              match scanValue fuel (skipWs r2) with
              | none => none
              | some (_, r3) =>
                match skipWs r3 with
                | [] => none
                | c3 :: r4 =>
                  if c3 = ',' then scanObjectBody fuel (skipWs r4)
                  else if c3 = rbrace then some (JKind.jobject, r4)
                  else none
            else none
      else none

/-- Scan an array body: at an element or the closing bracket
(whitespace already skipped). -/
def scanArrayBody : Nat → List Char → Option (JKind × List Char)
  | 0, _ => none
  | Nat.succ fuel, cs =>
    match cs with
    | [] => none
    | c :: r =>
      if c = ']' then some (JKind.jarray, r)
      else
        match scanValue fuel (c :: r) with
        | none => none
        | some (_, r1) =>
          match skipWs r1 with
          | [] => none
          | c2 :: r2 =>
            if c2 = ',' then scanArrayBody fuel (skipWs r2)
            else if c2 = ']' then some (JKind.jarray, r2)
            else none

end

/-- `JSON.parse(s)` as a validator: kind of the parsed value, `none` when the
parse throws. -/
def jsonKindCore (l : List Char) : Option JKind :=
  let cs := skipWs l
  match scanValue (cs.length + 1) cs with
  | some (k, rest) => if (skipWs rest).isEmpty then some k else none
  | none => none

def jsonParseKind (s : String) : Option JKind := jsonKindCore s.data

/-- Decoded character of a single-character escape. -/
def escChar (e : Char) : Option Char :=
  if e = '"' then some '"'
  else if e = '\\' then some '\\'
  else if e = '/' then some '/'
  else if e = 'b' then some (Char.ofNat 8)
  else if e = 'f' then some (Char.ofNat 12)
  else if e = 'n' then some '\n'
  else if e = 'r' then some '\r'
  else if e = 't' then some '\t'
  else none

/-- Decode a JSON string literal body: decoded characters plus the rest after
the closing quote.  `\u` escapes denoting surrogate halves are UTF-16 code
units with no Lean `Char` counterpart; the decoder answers `none` for them
(the program never decodes its keys, so this boundary is only used to *state*
what the decoded value would be, on ordinary text). -/
def decodeStrAux : List Char → Option (List Char × List Char)
  | [] => none
  | c :: r =>
    if c = '"' then some ([], r)
    else if c = '\\' then
      match r with
      | [] => none
      | e :: r2 =>
        if e = 'u' then
          match r2 with
          | a :: b :: c2 :: d :: r3 =>
            if hexDigit a && hexDigit b && hexDigit c2 && hexDigit d then
              let n := hexValList [a, b, c2, d]
              if n < 55296 ∨ 57343 < n then
                (decodeStrAux r3).map (fun p => (Char.ofNat n :: p.1, p.2))
              else none
            else none
          | _ => none
        else
          match escChar e with
          | some ec => (decodeStrAux r2).map (fun p => (ec :: p.1, p.2))
          | none => none
    else if c.toNat < 32 then none
    else (decodeStrAux r).map (fun p => (c :: p.1, p.2))

/-- Decode a complete JSON string literal. -/
def jsonDecodeString (s : String) : Option String :=
  match s.data with
  | c :: r =>
    if c = '"' then
      match decodeStrAux r with
      | some (ds, []) => some (String.mk ds)
      | _ => none
    else none
  | [] => none

example : jsonParseKind "\"a\"" = some .jstring := by decide
example : jsonParseKind "\"a b\"" = some .jstring := by decide
example : jsonParseKind "bogus" = none := by decide
example : jsonParseKind "123" = some .jnumber := by decide
example : jsonParseKind "\"a\" x" = none := by decide
example : jsonParseKind "[1, \"x\"]" = some .jarray := by decide
example : jsonParseKind "null" = some .jnull := by decide
example : jsonDecodeString "\"a\"" = some "a" := by decide
example : jsonDecodeString "\"a\\n\"" = some "a\n" := by decide

/-! ## SplitStream: the record parser

`SplitStream._transform` (auditcounts.js:182-232): trim the line, split it on
runs of whitespace into at most two fields (the second field keeps the rest of
the line), validate field 1 as an integer and field 2 as a JSON string
literal, and push `[count, field2-as-written]`.  Each failure emits exactly
one warning (via vstream) and drops the line. -/

/-- A parsed record: the count and the key token in serialized form. -/
abbrev SRec := Int × String

inductive WarnKind : Type
  | garbled       -- "line garbled": not exactly two fields
  | notInteger    -- "field 1 is not an integer"
  | invalidJSON   -- "invalid JSON"
  | notAString    -- "field 2 is not a string"
deriving DecidableEq, Repr

inductive SplitResult : Type
  | record (r : SRec)
  | warn (k : WarnKind)
deriving DecidableEq, Repr

def SplitResult.isWarn : SplitResult → Bool
  | .record _ => false
  | .warn _ => true

/-- `strsplit(line, /\s+/, 2)`: split on the first whitespace run; the second
field is the unsplit remainder. -/
def splitTwo (l : List Char) : List (List Char) :=
  let f1 := l.takeWhile (fun c => !jsWsChar c)
  let rest := l.dropWhile (fun c => !jsWsChar c)
  if rest.isEmpty then [f1] else [f1, rest.dropWhile jsWsChar]

/-- One `SplitStream._transform` step on a line. -/
def splitLine (line : String) : SplitResult :=
  match splitTwo (trimWs line.data) with
  | [f1, f2] =>
    match fieldIntOkCore f1 with
    | none => .warn .notInteger
    | some count =>
      match jsonKindCore f2 with
      | none => .warn .invalidJSON
      | some k =>
        if k = .jstring then .record (count, String.mk f2) else .warn .notAString
  | _ => .warn .garbled

/-- The record stream a whole input produces. -/
def recOfLine (line : String) : Option SRec :=
  match splitLine line with
  | .record r => some r
  | .warn _ => none

/-- Run the parser over a source's lines: the records pushed, in order, and
the number of warnings counted by the shared `nwarnings` counter. -/
def runSplitStats : List String → List SRec × Nat
  | [] => ([], 0)
  | line :: rest =>
    let p := runSplitStats rest
    match splitLine line with
    | .record r => (r :: p.1, p.2)
    | .warn _ => (p.1, p.2 + 1)

example : splitLine "5 bogus" = .warn .invalidJSON := by decide
example : splitLine "3 \"a\"" = .record (3, "\"a\"") := by decide
example : splitLine "05 \"a\"" = .record (5, "\"a\"") := by decide
example : splitLine "5" = .warn .garbled := by decide
example : splitLine "5 123" = .warn .notAString := by decide
example : splitLine "x \"a\"" = .warn .notInteger := by decide
example : splitLine "  7   \"a b\"  " = .record (7, "\"a b\"") := by decide

/-! ## JoinStream: the N-way sorted merge join

`JoinStream` (auditcounts.js:249-456) keeps per source: `src_next` (the single
pulled-but-not-yet-joined record), `src_last_join` (the last key this source
contributed to an emitted row, initially null) and `src_done`.  `kick()` pulls
one record into every empty slot, fails fatally when a pulled key is below the
source's `src_last_join`, then emits one row for the minimal buffered key and
repeats.  We model the synchronous projection of this demand-driven loop: a
`read()` that would block simply delivers the next list element (or
end-of-stream on the empty list), and the downstream consumer always has
capacity, so one `runAux` step is one loop iteration of `kick()`. -/

structure Src : Type where
  stream : List SRec           -- what this source's SplitStream will still deliver
  next : Option SRec           -- src_next
  lastJoin : Option String     -- src_last_join
  done : Bool                  -- src_done
deriving DecidableEq, Repr

/-- The out-of-order test `src.src_next_join < src.src_last_join`
(auditcounts.js:394).  When `src_last_join` is null the JS comparison
`string < null` coerces both sides with `ToNumber`; every key here is a JSON
string literal (it begins with a quote), so the left side is NaN and the
comparison is false: the first pulled record can never fail the check. -/
def keyLtLast (k : String) : Option String → Bool
  | none => false
  | some l => strLt k l

/-- Pull one record into a source's empty `next` slot (one iteration of the
loop at auditcounts.js:378-400); `none` is the fatal out-of-order error. -/
def pullSrc (s : Src) : Option Src :=
  if s.next.isSome || s.done then some s
  else
    match s.stream with
    | [] => some { s with done := true }
    | r :: rest =>
      if keyLtLast r.2 s.lastJoin then none
      else some { s with next := some r, stream := rest }

def pullAll : List Src → Option (List Src)
  | [] => some []
  | s :: ss =>
    match pullSrc s with
    | none => none
    | some s' =>
      match pullAll ss with
      | none => none
      | some ss' => some (s' :: ss')

/-- One step of the joinkey fold: `if (src.src_next_join !== null &&
(joinkey === null || joinkey > src.src_next_join)) joinkey = src.src_next_join`. -/
def combineMin (acc : Option String) (nx : Option SRec) : Option String :=
  match nx with
  | none => acc
  | some r =>
    match acc with
    | none => some r.2
    | some k => if strLt r.2 k then some r.2 else acc

/-- The joinkey fold (auditcounts.js:411-418): the least buffered key, keeping
the earlier source on ties. -/
def minKeyAux : Option String → List Src → Option String
  | acc, [] => acc
  | acc, s :: ss => minKeyAux (combineMin acc s.next) ss

def minKeyOf (ss : List Src) : Option String := minKeyAux none ss

/-- A joined row: the join key and one optional record per source. -/
abbrev JRow := String × List (Option SRec)

/-- Build and emit one row for join key `k` (auditcounts.js:436-447): each
source whose buffered key equals `k` contributes its record, clears `next`
and records `k` as its `src_last_join`. -/
def emitJoin (k : String) (ss : List Src) : JRow × List Src :=
  ((k, ss.map fun s =>
      match s.next with
      | some r => if r.2 = k then some r else none
      | none => none),
    ss.map fun s =>
      match s.next with
      | some r => if r.2 = k then { s with next := none, lastJoin := some k } else s
      | none => s)

inductive Outcome : Type
  | complete  -- this.push(null): end-of-stream emitted
  | fatal     -- this.emit('error', ...): out-of-order input
  | outOfFuel
deriving DecidableEq, Repr

def srcSize (s : Src) : Nat := s.stream.length + s.next.toList.length

def totalPending (ss : List Src) : Nat := (ss.map srcSize).sum

/-- Run the join loop: the rows pushed, in order, and how the run ended.
Fuel only bounds the iteration count; `totalPending + 1` never runs out. -/
def runAux : Nat → List Src → List JRow × Outcome
  | 0, _ => ([], .outOfFuel)
  | Nat.succ fuel, ss =>
    match pullAll ss with
    | none => ([], .fatal)
    | some ss' =>
      match minKeyOf ss' with
      | none => ([], .complete)
      | some k =>
        let p := emitJoin k ss'
        let q := runAux fuel p.2
        (p.1 :: q.1, q.2)

def initSrc (l : List SRec) : Src := ⟨l, none, none, false⟩

/-- The whole join of a list of source record streams. -/
def runJoin (inputs : List (List SRec)) : List JRow × Outcome :=
  runAux (totalPending (inputs.map initSrc) + 1) (inputs.map initSrc)

/-! ## AuditStream: the diagnostic classifier -/

structure OutRow : Type where
  dirname : String
  ndirents : Int
  nreported : Int
  status : String
deriving DecidableEq, Repr

inductive EmitResult : Type
  | crashed            -- a mod_assertplus assertion failed
  | suppressed         -- non-verbose "count okay": nothing is pushed
  | row (r : OutRow)
deriving DecidableEq, Repr

/-- `x || 0` on a possibly-null count: null becomes 0 (and `0 || 0` is 0, so
a present count always passes through unchanged). -/
def jsOr0 : Option Int → Int
  | none => 0
  | some n => n

/-- `AuditStream.prototype.emitRow` (auditcounts.js:519-552): pick the status
message by the presence and values of the two counts, suppress clean rows
unless verbose, and push via `emitRowRaw(dirname, rawcount || 0, count || 0)`.
Both counts null trips the `rawcount !== null` assertion. -/
def emitRow (verbose : Bool) (dirname : String) (rawcount count : Option Int) :
    EmitResult :=
  match rawcount, count with
  | none, none => .crashed
  | some rc, none =>
    .row ⟨dirname, rc, 0,
      if rc = 0 then "warn: missing optimized count"
      else "error: count mismatch (no optimized count)"⟩
  | none, some c =>
    .row ⟨dirname, 0, c,
      if c = 0 then "warn: leaked optimized count"
      else "error: count mismatch (no entries)"⟩
  | some rc, some c =>
    if c ≠ rc then .row ⟨dirname, rc, c, "error: count mismatch"⟩
    else if verbose then .row ⟨dirname, rc, c, "count okay"⟩
    else .suppressed

/-- `AuditStream.prototype._transform` (auditcounts.js:508-517): the entry
must be a 3-element array (key plus one slot for each of the two sources);
each slot passes its count (element 0) or null. -/
def auditTransform (verbose : Bool) (entry : JRow) : EmitResult :=
  match entry.2 with
  | [s0, s1] => emitRow verbose entry.1 (s0.map Prod.fst) (s1.map Prod.fst)
  | _ => .crashed

/-- Classify a whole run's rows; `none` if an assertion crashed the program. -/
def auditAll (verbose : Bool) : List JRow → Option (List OutRow)
  | [] => some []
  | row :: rest =>
    match auditTransform verbose row with
    | .crashed => none
    | .suppressed => auditAll verbose rest
    | .row r => (auditAll verbose rest).map (fun l => r :: l)

def recordsOf (lines : List String) : List SRec := lines.filterMap recOfLine

/-- The whole program on two input files, given as lists of lines
(file contents after lstream's line splitting), non-verbose or verbose:
parse each input, join, classify. -/
def pipelineRun (verbose : Bool) (la lb : List String) :
    Option (List OutRow) × Outcome :=
  let p := runJoin [recordsOf la, recordsOf lb]
  (auditAll verbose p.1, p.2)

/-- The decision table of the spec (section 4.3), written from its six rows,
in order; used to state that `emitRow` refines it. -/
def specClassify (verbose : Bool) (dirname : String) (raw reported : Option Int) :
    EmitResult :=
  match raw, reported with
  | some r, some c =>
    if r = c then
      if verbose then .row ⟨dirname, r, c, "count okay"⟩ else .suppressed
    else .row ⟨dirname, r, c, "error: count mismatch"⟩
  | some r, none =>
    if r = 0 then .row ⟨dirname, r, 0, "warn: missing optimized count"⟩
    else .row ⟨dirname, r, 0, "error: count mismatch (no optimized count)"⟩
  | none, some c =>
    if c = 0 then .row ⟨dirname, 0, c, "warn: leaked optimized count"⟩
    else .row ⟨dirname, 0, c, "error: count mismatch (no entries)"⟩
  | none, none => .crashed

example :
    runJoin [[(3, "\"a\""), (5, "\"b\"")], [(3, "\"a\""), (7, "\"d\"")]] =
      ([("\"a\"", [some (3, "\"a\""), some (3, "\"a\"")]),
        ("\"b\"", [some (5, "\"b\""), none]),
        ("\"d\"", [none, some (7, "\"d\"")])], .complete) := by decide

example :
    pipelineRun false ["3 \"a\"", "5 \"b\"", "2 \"c\""] ["3 \"a\"", "0 \"b\"", "7 \"d\""] =
      (some [⟨"\"b\"", 5, 0, "error: count mismatch"⟩,
        ⟨"\"c\"", 2, 0, "error: count mismatch (no optimized count)"⟩,
        ⟨"\"d\"", 0, 7, "error: count mismatch (no entries)"⟩], .complete) := by decide

example :
    runJoin [[(1, "\"k\""), (2, "\"k\"")]] =
      ([("\"k\"", [some (1, "\"k\"")]), ("\"k\"", [some (2, "\"k\"")])], .complete) := by
  decide

example : (runJoin [[(1, "\"b\""), (1, "\"a\"")]]).2 = .fatal := by decide

/-! ## Join engine analysis -/

/-- The keys a source still has to contribute: its buffered record (if any)
followed by the unread stream. -/
def pendKeys (s : Src) : List String := (s.next.toList ++ s.stream).map Prod.snd

/-- Key order as propositions. -/
def keyLtP (a b : String) : Prop := strLt a b = true

def keyLeP (a b : String) : Prop := strLt b a = false

instance : DecidableRel keyLtP :=
  fun a b => inferInstanceAs (Decidable (strLt a b = true))

instance : DecidableRel keyLeP :=
  fun a b => inferInstanceAs (Decidable (strLt b a = false))

/-- In the synchronous model a source is marked done exactly when its stream
ran dry with an empty buffer, so done sources hold nothing. -/
def DInv (s : Src) : Prop := s.done = true → s.next = none ∧ s.stream = []

/-- Everything a successful pull preserves or establishes: the pending keys,
the last joined key and the held-record count are unchanged, the source ends
up buffered or done, and `DInv` is preserved. -/
theorem pullSrc_buf (st : List SRec) (r : SRec) (lj : Option String) (dn : Bool) :
    pullSrc ⟨st, some r, lj, dn⟩ = some ⟨st, some r, lj, dn⟩ := rfl

theorem pullSrc_done (st : List SRec) (lj : Option String) :
    pullSrc ⟨st, none, lj, true⟩ = some ⟨st, none, lj, true⟩ := rfl

theorem pullSrc_end (lj : Option String) :
    pullSrc ⟨[], none, lj, false⟩ = some ⟨[], none, lj, true⟩ := rfl

theorem pullSrc_step (r : SRec) (rest : List SRec) (lj : Option String) :
    pullSrc ⟨r :: rest, none, lj, false⟩ =
      if keyLtLast r.2 lj = true then none
      else some ⟨rest, some r, lj, false⟩ := rfl

/-- Everything a successful pull preserves or establishes: the pending keys,
the last joined key and the held-record count are unchanged, the source ends
up buffered or done, and `DInv` is preserved. -/
theorem pullSrc_facts {s s' : Src} (h : pullSrc s = some s') :
    pendKeys s' = pendKeys s ∧ s'.lastJoin = s.lastJoin ∧ srcSize s' = srcSize s ∧
      (s'.next.isSome = true ∨ s'.done = true) ∧ (DInv s → DInv s') := by
  obtain ⟨st, nx, lj, dn⟩ := s
  cases nx with
  | some r =>
    obtain rfl : (⟨st, some r, lj, dn⟩ : Src) = s' :=
      Option.some.inj ((pullSrc_buf st r lj dn).symm.trans h)
    exact ⟨rfl, rfl, rfl, Or.inl rfl, fun d => d⟩
  | none =>
    cases dn with
    | true =>
      obtain rfl : (⟨st, none, lj, true⟩ : Src) = s' :=
        Option.some.inj ((pullSrc_done st lj).symm.trans h)
      exact ⟨rfl, rfl, rfl, Or.inr rfl, fun d => d⟩
    | false =>
      cases st with
      | nil =>
        obtain rfl : (⟨[], none, lj, true⟩ : Src) = s' :=
          Option.some.inj ((pullSrc_end lj).symm.trans h)
        exact ⟨by simp [pendKeys], rfl, by simp [srcSize], Or.inr rfl,
          fun _ => fun _ => ⟨rfl, rfl⟩⟩
      | cons r rest =>
        rw [pullSrc_step] at h
        by_cases hv : keyLtLast r.2 lj = true
        · rw [if_pos hv] at h
          exact absurd h (by simp)
        · rw [if_neg hv] at h
          obtain rfl : (⟨rest, some r, lj, false⟩ : Src) = s' := Option.some.inj h
          refine ⟨by simp [pendKeys], rfl, by simp [srcSize], Or.inl rfl, ?_⟩
          intro _ hd
          exact absurd hd (by simp)

/-- A source holding a buffered record is skipped by the pull loop. -/
theorem pullSrc_of_buffered {s : Src} {r : SRec} (h : s.next = some r) :
    pullSrc s = some s := by
  obtain ⟨st, nx, lj, dn⟩ := s
  simp only at h
  subst h
  exact pullSrc_buf st r lj dn

/-- The pull succeeds whenever the source's remaining keys do not go below
its last joined key. -/
theorem pullSrc_some_of_bound {s : Src}
    (hb : ∀ L, s.lastJoin = some L → ∀ x ∈ pendKeys s, strLt x L = false) :
    ∃ s', pullSrc s = some s' := by
  obtain ⟨st, nx, lj, dn⟩ := s
  cases nx with
  | some r => exact ⟨_, pullSrc_buf st r lj dn⟩
  | none =>
    cases dn with
    | true => exact ⟨_, pullSrc_done st lj⟩
    | false =>
      cases st with
      | nil => exact ⟨_, pullSrc_end lj⟩
      | cons r rest =>
        have hkey : keyLtLast r.2 lj = false := by
          cases lj with
          | none => rfl
          | some L => exact hb L rfl r.2 (by simp [pendKeys])
        exact ⟨⟨rest, some r, lj, false⟩, by rw [pullSrc_step, if_neg (by simp [hkey])]⟩

/-- An armed source (empty buffer, not done, next stream key below the last
joined key) makes the pull fail fatally. -/
theorem pullSrc_none_armed {s : Src} {r : SRec} {rest : List SRec} {L : String}
    (hn : s.next = none) (hd : s.done = false) (hs : s.stream = r :: rest)
    (hl : s.lastJoin = some L) (hv : strLt r.2 L = true) : pullSrc s = none := by
  obtain ⟨st, nx, lj, dn⟩ := s
  simp only at hn hd hs hl
  subst hn hd hs hl
  rw [pullSrc_step, if_pos]
  simp [keyLtLast, hv]

theorem pullAll_forall₂ {ss ss' : List Src} (h : pullAll ss = some ss') :
    List.Forall₂ (fun s s' => pullSrc s = some s') ss ss' := by
  induction ss generalizing ss' with
  | nil =>
    obtain rfl : [] = ss' := Option.some.inj h
    exact List.Forall₂.nil
  | cons s ms ih =>
    simp only [pullAll] at h
    cases hp : pullSrc s with
    | none => rw [hp] at h; exact absurd h (by simp)
    | some s1 =>
      rw [hp] at h
      cases hq : pullAll ms with
      | none => rw [hq] at h; exact absurd h (by simp)
      | some ms' =>
        rw [hq] at h
        obtain rfl : s1 :: ms' = ss' := Option.some.inj h
        exact List.Forall₂.cons hp (ih hq)

theorem pullAll_some_of_bound {ss : List Src}
    (hb : ∀ s ∈ ss, ∀ L, s.lastJoin = some L → ∀ x ∈ pendKeys s, strLt x L = false) :
    ∃ ss', pullAll ss = some ss' := by
  induction ss with
  | nil => exact ⟨[], rfl⟩
  | cons s ms ih =>
    obtain ⟨s', hs'⟩ := pullSrc_some_of_bound (hb s (by simp))
    obtain ⟨ms', hms'⟩ := ih (fun t ht => hb t (by simp [ht]))
    exact ⟨s' :: ms', by simp only [pullAll]; rw [hs', hms']⟩

theorem forall₂_exists_left {α β : Type} {R : α → β → Prop} {l₁ : List α}
    {l₂ : List β} (h : List.Forall₂ R l₁ l₂) :
    ∀ a ∈ l₁, ∃ b ∈ l₂, R a b := by
  induction h with
  | nil => intro a ha; exact absurd ha (by simp)
  | cons hr _ ih =>
    intro a ha
    rcases List.mem_cons.mp ha with rfl | ha
    · exact ⟨_, by simp, hr⟩
    · obtain ⟨b, hb, hrb⟩ := ih a ha
      exact ⟨b, by simp [hb], hrb⟩

theorem forall₂_exists_right {α β : Type} {R : α → β → Prop} {l₁ : List α}
    {l₂ : List β} (h : List.Forall₂ R l₁ l₂) :
    ∀ b ∈ l₂, ∃ a ∈ l₁, R a b := by
  induction h with
  | nil => intro b hb; exact absurd hb (by simp)
  | cons hr _ ih =>
    intro b hb
    rcases List.mem_cons.mp hb with rfl | hb
    · exact ⟨_, by simp, hr⟩
    · obtain ⟨a, ha, hra⟩ := ih b hb
      exact ⟨a, by simp [ha], hra⟩

theorem pullAll_totalPending {ss ss' : List Src} (h : pullAll ss = some ss') :
    totalPending ss' = totalPending ss := by
  induction ss generalizing ss' with
  | nil =>
    obtain rfl : [] = ss' := Option.some.inj h
    rfl
  | cons s ms ih =>
    simp only [pullAll] at h
    cases hp : pullSrc s with
    | none => rw [hp] at h; exact absurd h (by simp)
    | some s1 =>
      rw [hp] at h
      cases hq : pullAll ms with
      | none => rw [hq] at h; exact absurd h (by simp)
      | some ms' =>
        rw [hq] at h
        obtain rfl : s1 :: ms' = ss' := Option.some.inj h
        simp only [totalPending, List.map_cons, List.sum_cons] at ih ⊢
        rw [(pullSrc_facts hp).2.2.1, ih hq]

theorem minKeyAux_none : ∀ (ss : List Src) (acc : Option String),
    minKeyAux acc ss = none → acc = none ∧ ∀ s ∈ ss, s.next = none := by
  intro ss
  induction ss with
  | nil => exact fun acc h => ⟨h, by simp⟩
  | cons s ms ih =>
    intro acc h
    simp only [minKeyAux] at h
    cases hn : s.next with
    | none =>
      rw [hn] at h
      simp only [combineMin] at h
      obtain ⟨h1, h2⟩ := ih _ h
      refine ⟨h1, ?_⟩
      intro t ht
      rcases List.mem_cons.mp ht with rfl | ht
      · exact hn
      · exact h2 t ht
    | some r =>
      rw [hn] at h
      cases acc with
      | none =>
        simp only [combineMin] at h
        exact absurd (ih _ h).1 (by simp)
      | some j =>
        simp only [combineMin] at h
        by_cases hlt : strLt r.2 j = true
        · rw [if_pos hlt] at h
          exact absurd (ih _ h).1 (by simp)
        · rw [if_neg hlt] at h
          exact absurd (ih _ h).1 (by simp)

theorem minKeyAux_lb : ∀ (ss : List Src) (acc : Option String) (k : String),
    minKeyAux acc ss = some k →
      (∀ j, acc = some j → strLt j k = false) ∧
        (∀ s ∈ ss, ∀ r, s.next = some r → strLt r.2 k = false) := by
  intro ss
  induction ss with
  | nil =>
    intro acc k h
    refine ⟨?_, by simp⟩
    intro j hj
    rw [hj] at h
    obtain rfl : j = k := Option.some.inj h
    exact strLt_irrefl j
  | cons s ms ih =>
    intro acc k h
    simp only [minKeyAux] at h
    cases hn : s.next with
    | none =>
      rw [hn] at h
      simp only [combineMin] at h
      obtain ⟨h1, h2⟩ := ih _ _ h
      refine ⟨h1, ?_⟩
      intro t ht r hr
      rcases List.mem_cons.mp ht with rfl | ht
      · rw [hr] at hn
        exact Option.noConfusion hn
      · exact h2 t ht r hr
    | some r =>
      rw [hn] at h
      cases acc with
      | none =>
        simp only [combineMin] at h
        obtain ⟨h1, h2⟩ := ih _ _ h
        have hr2k : strLt r.2 k = false := h1 r.2 rfl
        refine ⟨fun j hj => Option.noConfusion hj, ?_⟩
        intro t ht r' hr'
        rcases List.mem_cons.mp ht with rfl | ht
        · rw [hr'] at hn
          obtain rfl : r' = r := Option.some.inj hn
          exact hr2k
        · exact h2 t ht r' hr'
      | some j =>
        simp only [combineMin] at h
        by_cases hlt : strLt r.2 j = true
        · rw [if_pos hlt] at h
          obtain ⟨h1, h2⟩ := ih _ _ h
          have hr2k : strLt r.2 k = false := h1 r.2 rfl
          have hjk : strLt j k = false := by
            cases hjk : strLt j k with
            | false => rfl
            | true =>
              have : strLt j r.2 = true := strLt_of_lt_of_not_lt hjk hr2k
              exact absurd this (by simp [strLt_asymm hlt])
          refine ⟨?_, ?_⟩
          · intro j' hj'
            obtain rfl : j = j' := Option.some.inj hj'
            exact hjk
          · intro t ht r' hr'
            rcases List.mem_cons.mp ht with rfl | ht
            · rw [hr'] at hn
              obtain rfl : r' = r := Option.some.inj hn
              exact hr2k
            · exact h2 t ht r' hr'
        · rw [if_neg hlt] at h
          obtain ⟨h1, h2⟩ := ih _ _ h
          have hjk : strLt j k = false := h1 j rfl
          have hr2k : strLt r.2 k = false :=
            strLt_false_trans hjk (by simpa using hlt)
          refine ⟨?_, ?_⟩
          · intro j' hj'
            obtain rfl : j = j' := Option.some.inj hj'
            exact hjk
          · intro t ht r' hr'
            rcases List.mem_cons.mp ht with rfl | ht
            · rw [hr'] at hn
              obtain rfl : r' = r := Option.some.inj hn
              exact hr2k
            · exact h2 t ht r' hr'

theorem minKeyAux_mem : ∀ (ss : List Src) (acc : Option String) (k : String),
    minKeyAux acc ss = some k →
      acc = some k ∨ ∃ s ∈ ss, ∃ r, s.next = some r ∧ r.2 = k := by
  intro ss
  induction ss with
  | nil => exact fun acc k h => Or.inl h
  | cons s ms ih =>
    intro acc k h
    simp only [minKeyAux] at h
    cases hn : s.next with
    | none =>
      rw [hn] at h
      simp only [combineMin] at h
      rcases ih _ _ h with h1 | ⟨t, ht, r', hr', hk⟩
      · exact Or.inl h1
      · exact Or.inr ⟨t, by simp [ht], r', hr', hk⟩
    | some r =>
      rw [hn] at h
      cases acc with
      | none =>
        simp only [combineMin] at h
        rcases ih _ _ h with h1 | ⟨t, ht, r', hr', hk⟩
        · exact Or.inr ⟨s, by simp, r, hn, Option.some.inj h1⟩
        · exact Or.inr ⟨t, by simp [ht], r', hr', hk⟩
      | some j =>
        simp only [combineMin] at h
        by_cases hlt : strLt r.2 j = true
        · rw [if_pos hlt] at h
          rcases ih _ _ h with h1 | ⟨t, ht, r', hr', hk⟩
          · exact Or.inr ⟨s, by simp, r, hn, Option.some.inj h1⟩
          · exact Or.inr ⟨t, by simp [ht], r', hr', hk⟩
        · rw [if_neg hlt] at h
          rcases ih _ _ h with h1 | ⟨t, ht, r', hr', hk⟩
          · exact Or.inl h1
          · exact Or.inr ⟨t, by simp [ht], r', hr', hk⟩

theorem minKeyOf_none {ss : List Src} (h : minKeyOf ss = none) :
    ∀ s ∈ ss, s.next = none :=
  (minKeyAux_none ss none h).2

theorem minKeyOf_lb {ss : List Src} {k : String} (h : minKeyOf ss = some k) :
    ∀ s ∈ ss, ∀ r, s.next = some r → strLt r.2 k = false :=
  (minKeyAux_lb ss none k h).2

theorem minKeyOf_mem {ss : List Src} {k : String} (h : minKeyOf ss = some k) :
    ∃ s ∈ ss, ∃ r, s.next = some r ∧ r.2 = k := by
  rcases minKeyAux_mem ss none k h with h1 | h1
  · exact Option.noConfusion h1
  · exact h1

/-- The per-source slot of the emitted row. -/
def slotOf (k : String) (s : Src) : Option SRec :=
  match s.next with
  | some r => if r.2 = k then some r else none
  | none => none

/-- The per-source state update of an emission. -/
def consume (k : String) (s : Src) : Src :=
  match s.next with
  | some r => if r.2 = k then { s with next := none, lastJoin := some k } else s
  | none => s

theorem emitJoin_eq (k : String) (ss : List Src) :
    emitJoin k ss = ((k, ss.map (slotOf k)), ss.map (consume k)) := rfl

theorem consume_consumed {s : Src} {r : SRec} {k : String} (hn : s.next = some r)
    (hk : r.2 = k) : consume k s = { s with next := none, lastJoin := some k } := by
  simp only [consume, hn, hk, if_pos]

theorem consume_skip_ne {s : Src} {r : SRec} {k : String} (hn : s.next = some r)
    (hk : ¬ r.2 = k) : consume k s = s := by
  simp only [consume, hn, hk, if_neg, if_false]

theorem consume_skip_none {s : Src} {k : String} (hn : s.next = none) :
    consume k s = s := by
  simp only [consume, hn]

theorem srcSize_consume_le (k : String) (s : Src) :
    srcSize (consume k s) ≤ srcSize s := by
  cases hn : s.next with
  | none => rw [consume_skip_none hn]
  | some r =>
    by_cases hk : r.2 = k
    · rw [consume_consumed hn hk]
      simp [srcSize]
    · rw [consume_skip_ne hn hk]

theorem emit_totalPending_lt {ss : List Src} {k : String}
    (h : minKeyOf ss = some k) :
    totalPending (ss.map (consume k)) < totalPending ss := by
  obtain ⟨s, hs, r, hn, hk⟩ := minKeyOf_mem h
  simp only [totalPending, List.map_map]
  refine List.sum_lt_sum _ _ (fun t _ => srcSize_consume_le k t) ⟨s, hs, ?_⟩
  simp only [Function.comp_apply]
  rw [consume_consumed hn hk]
  simp [srcSize, hn]

/-- With fuel exceeding the number of pending records, the run never stops
for lack of fuel. -/
theorem runAux_ends (fuel : Nat) : ∀ ss : List Src, totalPending ss < fuel →
    (runAux fuel ss).2 ≠ .outOfFuel := by
  induction fuel with
  | zero => intro ss h; omega
  | succ f ih =>
    intro ss h
    simp only [runAux]
    cases hp : pullAll ss with
    | none => simp
    | some ss' =>
      cases hm : minKeyOf ss' with
      | none => simp [hm]
      | some k =>
        simp only [hm, emitJoin_eq]
        have h1 : totalPending (ss'.map (consume k)) < totalPending ss' :=
          emit_totalPending_lt hm
        have h2 : totalPending ss' = totalPending ss := pullAll_totalPending hp
        exact ih _ (by omega)

/-! ### Sorted sources never fail -/

/-- A source is in lax-sorted shape: its remaining keys are non-decreasing and
all of them are at or above its last joined key. -/
def laxSrc (s : Src) : Prop :=
  List.Pairwise keyLeP (pendKeys s) ∧
    ∀ L, s.lastJoin = some L → ∀ x ∈ pendKeys s, strLt x L = false

theorem pullSrc_lax {s s' : Src} (hl : laxSrc s) (h : pullSrc s = some s') :
    laxSrc s' := by
  obtain ⟨hpend, hlj, _, _, _⟩ := pullSrc_facts h
  exact ⟨hpend ▸ hl.1, fun L hL x hx => hl.2 L (hlj ▸ hL) x (hpend ▸ hx)⟩

theorem pullAll_lax {ss ss' : List Src} (hl : ∀ s ∈ ss, laxSrc s)
    (h : pullAll ss = some ss') : ∀ s' ∈ ss', laxSrc s' := by
  intro s' hs'
  obtain ⟨s, hs, hps⟩ := forall₂_exists_right (pullAll_forall₂ h) s' hs'
  exact pullSrc_lax (hl s hs) hps

theorem pullAll_some_of_lax {ss : List Src} (hl : ∀ s ∈ ss, laxSrc s) :
    ∃ ss', pullAll ss = some ss' :=
  pullAll_some_of_bound (fun s hs => (hl s hs).2)

theorem consume_lax {s : Src} (k : String) (hl : laxSrc s) :
    laxSrc (consume k s) := by
  cases hn : s.next with
  | none => rw [consume_skip_none hn]; exact hl
  | some r =>
    by_cases hk : r.2 = k
    · rw [consume_consumed hn hk]
      have hpend : pendKeys s = k :: (s.stream.map Prod.snd) := by
        simp [pendKeys, hn, hk]
      have hpend' :
          pendKeys { s with next := none, lastJoin := some k } =
            s.stream.map Prod.snd := by
        simp [pendKeys]
      obtain ⟨hp1, _⟩ := hl
      rw [hpend] at hp1
      obtain ⟨hhead, htail⟩ := List.pairwise_cons.mp hp1
      constructor
      · rw [hpend']
        exact htail
      · intro L hL x hx
        simp only at hL
        obtain rfl : k = L := Option.some.inj hL
        exact hhead x (by rwa [hpend'] at hx)
    · rw [consume_skip_ne hn hk]
      exact hl

theorem runAux_lax (fuel : Nat) : ∀ ss : List Src, (∀ s ∈ ss, laxSrc s) →
    (runAux fuel ss).2 ≠ .fatal := by
  induction fuel with
  | zero => intro ss _; simp [runAux]
  | succ f ih =>
    intro ss hl
    obtain ⟨ss', hp⟩ := pullAll_some_of_lax hl
    have hl' : ∀ s' ∈ ss', laxSrc s' := pullAll_lax hl hp
    simp only [runAux, hp]
    cases hm : minKeyOf ss' with
    | none => simp
    | some k =>
      simp only [emitJoin_eq]
      refine ih _ ?_
      intro t ht
      obtain ⟨s', hs', rfl⟩ := List.mem_map.mp ht
      exact consume_lax k (hl' s' hs')

/-! ### Any disorder is detected -/

/-- A source one pull away from the fatal out-of-order check. -/
def armedSrc (s : Src) : Prop :=
  s.next = none ∧ s.done = false ∧
    ∃ L r rest, s.lastJoin = some L ∧ s.stream = r :: rest ∧ strLt r.2 L = true

/-- A source that will eventually trip the out-of-order check: either its
remaining keys contain a descent, or it is armed. -/
def ThreatS (s : Src) : Prop :=
  ¬ List.Chain' keyLeP (pendKeys s) ∨ armedSrc s

theorem pullAll_no_armed {ss ss' : List Src} (h : pullAll ss = some ss') :
    ∀ s ∈ ss, ¬ armedSrc s := by
  intro s hs ⟨hn, hd, L, r, rest, hl, hstream, hv⟩
  obtain ⟨s', _, hps⟩ := forall₂_exists_left (pullAll_forall₂ h) s hs
  rw [pullSrc_none_armed hn hd hstream hl hv] at hps
  exact Option.noConfusion hps

theorem pullAll_DInv {ss ss' : List Src} (hd : ∀ s ∈ ss, DInv s)
    (h : pullAll ss = some ss') : ∀ s' ∈ ss', DInv s' := by
  intro s' hs'
  obtain ⟨s, hs, hps⟩ := forall₂_exists_right (pullAll_forall₂ h) s' hs'
  exact (pullSrc_facts hps).2.2.2.2 (hd s hs)

theorem pullAll_post {ss ss' : List Src} (h : pullAll ss = some ss') :
    ∀ s' ∈ ss', s'.next.isSome = true ∨ s'.done = true := by
  intro s' hs'
  obtain ⟨s, _, hps⟩ := forall₂_exists_right (pullAll_forall₂ h) s' hs'
  exact (pullSrc_facts hps).2.2.2.1

theorem consume_DInv {s : Src} (k : String) (hd : DInv s) : DInv (consume k s) := by
  cases hn : s.next with
  | none => rw [consume_skip_none hn]; exact hd
  | some r =>
    by_cases hk : r.2 = k
    · rw [consume_consumed hn hk]
      intro hdone
      simp only at hdone
      obtain ⟨hn', _⟩ := hd hdone
      rw [hn] at hn'
      exact Option.noConfusion hn'
    · rw [consume_skip_ne hn hk]
      exact hd

theorem consume_threat {s : Src} {k : String} (hd : DInv s) (ht : ThreatS s) :
    ThreatS (consume k s) := by
  rcases ht with hdesc | harm
  · cases hn : s.next with
    | none => rw [consume_skip_none hn]; exact Or.inl hdesc
    | some r =>
      by_cases hk : r.2 = k
      · rw [consume_consumed hn hk]
        have hdone : s.done = false := by
          cases hdn : s.done with
          | false => rfl
          | true =>
            obtain ⟨hn', _⟩ := hd hdn
            rw [hn] at hn'
            exact Option.noConfusion hn'
        have hpend : pendKeys s = k :: (s.stream.map Prod.snd) := by
          simp [pendKeys, hn, hk]
        have hpend' :
            pendKeys { s with next := none, lastJoin := some k } =
              s.stream.map Prod.snd := by
          simp [pendKeys]
        rw [hpend] at hdesc
        by_cases hc : List.Chain' keyLeP (s.stream.map Prod.snd)
        · -- the descent is at the head: the source becomes armed
          have hhead : ¬ ∀ y ∈ (s.stream.map Prod.snd).head?, keyLeP k y := by
            intro hall
            exact hdesc (List.chain'_cons'.mpr ⟨hall, hc⟩)
          cases hstream : s.stream with
          | nil => rw [hstream] at hhead; simp at hhead
          | cons r1 rest =>
            rw [hstream] at hhead
            simp only [List.map_cons, List.head?_cons, Option.mem_some_iff] at hhead
            have hy : ¬ keyLeP k r1.2 := by
              intro hy
              exact hhead (fun y hy' => hy' ▸ hy)
            have hv : strLt r1.2 k = true := by
              cases hx : strLt r1.2 k with
              | true => rfl
              | false => exact absurd hx hy
            exact Or.inr ⟨rfl, hdone, k, r1, rest, rfl, rfl, hv⟩
        · exact Or.inl (by rwa [hpend'])
      · rw [consume_skip_ne hn hk]
        exact Or.inl hdesc
  · -- an armed source has an empty buffer, so the emission skips it
    rw [consume_skip_none harm.1]
    exact Or.inr harm

theorem runAux_fatal (fuel : Nat) : ∀ ss : List Src, totalPending ss < fuel →
    (∀ s ∈ ss, DInv s) → (∃ s ∈ ss, ThreatS s) →
    (runAux fuel ss).2 = .fatal := by
  induction fuel with
  | zero => intro ss h; omega
  | succ f ih =>
    intro ss hfuel hd ⟨s, hs, hts⟩
    simp only [runAux]
    cases hp : pullAll ss with
    | none => rfl
    | some ss' =>
      -- the threatened source survived the pull, so it is a descent
      have hdesc : ¬ List.Chain' keyLeP (pendKeys s) := by
        rcases hts with hdesc | harm
        · exact hdesc
        · exact absurd harm (pullAll_no_armed hp s hs)
      obtain ⟨s', hs', hps⟩ := forall₂_exists_left (pullAll_forall₂ hp) s hs
      have hdesc' : ¬ List.Chain' keyLeP (pendKeys s') := by
        rw [(pullSrc_facts hps).1]
        exact hdesc
      have hd' : ∀ t ∈ ss', DInv t := pullAll_DInv hd hp
      cases hm : minKeyOf ss' with
      | none =>
        -- impossible: a completed engine has no pending keys anywhere
        exfalso
        have hnone : s'.next = none := minKeyOf_none hm s' hs'
        have hdone : s'.done = true := by
          rcases pullAll_post hp s' hs' with hsome | hdone
          · rw [hnone] at hsome
            exact absurd hsome (by simp)
          · exact hdone
        obtain ⟨_, hstream⟩ := hd' s' hs' hdone
        apply hdesc'
        simp [pendKeys, hnone, hstream]
      | some k =>
        simp only [hm, emitJoin_eq]
        refine ih _ ?_ ?_ ?_
        · have h1 : totalPending (ss'.map (consume k)) < totalPending ss' :=
            emit_totalPending_lt hm
          have h2 : totalPending ss' = totalPending ss := pullAll_totalPending hp
          omega
        · intro t ht
          obtain ⟨t', ht', rfl⟩ := List.mem_map.mp ht
          exact consume_DInv k (hd' t' ht')
        · exact ⟨consume k s', List.mem_map.mpr ⟨s', hs', rfl⟩,
            consume_threat (hd' s' hs') (Or.inl hdesc')⟩

/-! ### Sorted duplicate-free sources: completeness, order, termination -/

/-- A source in strictly-sorted shape (each source non-decreasing with at most
one record per key, i.e. strictly increasing), with its remaining keys above
its last joined key. -/
def strictSrc (s : Src) : Prop :=
  List.Pairwise keyLtP (pendKeys s) ∧
    ∀ L, s.lastJoin = some L → ∀ x ∈ pendKeys s, strLt x L = false

theorem pullSrc_strict {s s' : Src} (hl : strictSrc s) (h : pullSrc s = some s') :
    strictSrc s' := by
  obtain ⟨hpend, hlj, _, _, _⟩ := pullSrc_facts h
  exact ⟨hpend ▸ hl.1, fun L hL x hx => hl.2 L (hlj ▸ hL) x (hpend ▸ hx)⟩

/-- Whether the emission for key `k` takes this source's buffered record. -/
def isConsumed (s : Src) (k : String) : Prop := ∃ r, s.next = some r ∧ r.2 = k

theorem pendKeys_consumed {s : Src} {r : SRec} {k : String} (hn : s.next = some r)
    (hk : r.2 = k) :
    pendKeys s = k :: pendKeys (consume k s) := by
  rw [consume_consumed hn hk]
  simp [pendKeys, hn, hk]

theorem mem_pendKeys_consume {k x : String} {s : Src} :
    x ∈ pendKeys s ↔ (isConsumed s k ∧ x = k) ∨ x ∈ pendKeys (consume k s) := by
  cases hn : s.next with
  | none =>
    rw [consume_skip_none hn]
    constructor
    · exact fun h => Or.inr h
    · rintro (⟨⟨r, hr, _⟩, _⟩ | h)
      · rw [hn] at hr
        exact Option.noConfusion hr
      · exact h
  | some r =>
    by_cases hk : r.2 = k
    · rw [pendKeys_consumed hn hk]
      constructor
      · intro h
        rcases List.mem_cons.mp h with rfl | h
        · exact Or.inl ⟨⟨r, hn, hk⟩, rfl⟩
        · exact Or.inr h
      · rintro (⟨_, rfl⟩ | h)
        · exact List.mem_cons_self _ _
        · exact List.mem_cons_of_mem _ h
    · rw [consume_skip_ne hn hk]
      constructor
      · exact fun h => Or.inr h
      · rintro (⟨⟨r', hr', hk'⟩, _⟩ | h)
        · rw [hn] at hr'
          obtain rfl : r = r' := Option.some.inj hr'
          exact absurd hk' hk
        · exact h

theorem consume_strict {s : Src} (k : String) (hl : strictSrc s) :
    strictSrc (consume k s) := by
  cases hn : s.next with
  | none => rw [consume_skip_none hn]; exact hl
  | some r =>
    by_cases hk : r.2 = k
    · have hpend := pendKeys_consumed hn hk
      obtain ⟨hp1, _⟩ := hl
      rw [hpend] at hp1
      obtain ⟨hhead, htail⟩ := List.pairwise_cons.mp hp1
      refine ⟨htail, ?_⟩
      intro L hL x hx
      have hlj : (consume k s).lastJoin = some k := by
        rw [consume_consumed hn hk]
      rw [hlj] at hL
      obtain rfl : k = L := Option.some.inj hL
      exact strLt_asymm (hhead x hx)
    · rw [consume_skip_ne hn hk]
      exact hl

/-- After a successful pull, an existential over sources can be transported
across the pull in either direction without changing the pending keys. -/
theorem pend_exists_pull {ss ss' : List Src} {x : String}
    (h : pullAll ss = some ss') :
    (∃ s ∈ ss, x ∈ pendKeys s) ↔ ∃ s' ∈ ss', x ∈ pendKeys s' := by
  constructor
  · rintro ⟨s, hs, hx⟩
    obtain ⟨s', hs', hps⟩ := forall₂_exists_left (pullAll_forall₂ h) s hs
    exact ⟨s', hs', by rw [(pullSrc_facts hps).1]; exact hx⟩
  · rintro ⟨s', hs', hx⟩
    obtain ⟨s, hs, hps⟩ := forall₂_exists_right (pullAll_forall₂ h) s' hs'
    exact ⟨s, hs, by rw [← (pullSrc_facts hps).1]; exact hx⟩

theorem runAux_strict (fuel : Nat) : ∀ (ss : List Src) (low : Option String),
    totalPending ss < fuel →
    (∀ s ∈ ss, DInv s) →
    (∀ s ∈ ss, strictSrc s) →
    (∀ m, low = some m → ∀ s ∈ ss, ∀ x ∈ pendKeys s, strLt m x = true) →
    (runAux fuel ss).2 = .complete ∧
      List.Pairwise keyLtP ((runAux fuel ss).1.map Prod.fst) ∧
      (∀ m, low = some m → ∀ x ∈ (runAux fuel ss).1.map Prod.fst, strLt m x = true) ∧
      (∀ x, x ∈ (runAux fuel ss).1.map Prod.fst ↔ ∃ s ∈ ss, x ∈ pendKeys s) := by
  induction fuel with
  | zero => intro ss low h; omega
  | succ f ih =>
    intro ss low hfuel hd hstrict hlow
    obtain ⟨ss', hp⟩ := pullAll_some_of_bound (fun s hs => (hstrict s hs).2)
    have hforall := pullAll_forall₂ hp
    have hd' : ∀ s' ∈ ss', DInv s' := pullAll_DInv hd hp
    have hstrict' : ∀ s' ∈ ss', strictSrc s' := by
      intro s' hs'
      obtain ⟨s, hs, hps⟩ := forall₂_exists_right hforall s' hs'
      exact pullSrc_strict (hstrict s hs) hps
    have hlow' : ∀ m, low = some m → ∀ s' ∈ ss', ∀ x ∈ pendKeys s',
        strLt m x = true := by
      intro m hm s' hs' x hx
      obtain ⟨s, hs, hps⟩ := forall₂_exists_right hforall s' hs'
      exact hlow m hm s hs x (by rw [← (pullSrc_facts hps).1]; exact hx)
    simp only [runAux, hp]
    cases hm : minKeyOf ss' with
    | none =>
      have hempty : ∀ s' ∈ ss', pendKeys s' = [] := by
        intro s' hs'
        have hnone : s'.next = none := minKeyOf_none hm s' hs'
        have hdone : s'.done = true := by
          rcases pullAll_post hp s' hs' with hsome | hdone
          · rw [hnone] at hsome
            exact absurd hsome (by simp)
          · exact hdone
        obtain ⟨_, hstream⟩ := hd' s' hs' hdone
        simp [pendKeys, hnone, hstream]
      refine ⟨rfl, by simp, by simp, ?_⟩
      intro x
      simp only [List.map_nil, List.not_mem_nil, false_iff]
      rintro ⟨s, hs, hx⟩
      obtain ⟨s', hs', hx'⟩ := (pend_exists_pull hp).mp ⟨s, hs, hx⟩
      rw [hempty s' hs'] at hx'
      exact List.not_mem_nil x hx'
    | some k =>
      simp only [hm, emitJoin_eq]
      have hfuel'' : totalPending (ss'.map (consume k)) < f := by
        have h1 := emit_totalPending_lt hm
        have h2 := pullAll_totalPending hp
        omega
      have hd'' : ∀ t ∈ ss'.map (consume k), DInv t := by
        intro t ht
        obtain ⟨s', hs', rfl⟩ := List.mem_map.mp ht
        exact consume_DInv k (hd' s' hs')
      have hstrict'' : ∀ t ∈ ss'.map (consume k), strictSrc t := by
        intro t ht
        obtain ⟨s', hs', rfl⟩ := List.mem_map.mp ht
        exact consume_strict k (hstrict' s' hs')
      have hlow'' : ∀ m, (some k : Option String) = some m →
          ∀ t ∈ ss'.map (consume k), ∀ x ∈ pendKeys t, strLt m x = true := by
        intro m hmk t ht x hx
        obtain rfl : k = m := Option.some.inj hmk
        obtain ⟨s', hs', rfl⟩ := List.mem_map.mp ht
        cases hn : s'.next with
        | none =>
          have hdone : s'.done = true := by
            rcases pullAll_post hp s' hs' with hsome | hdone
            · rw [hn] at hsome
              exact absurd hsome (by simp)
            · exact hdone
          obtain ⟨_, hstream⟩ := hd' s' hs' hdone
          rw [consume_skip_none hn,
            show pendKeys s' = [] by simp [pendKeys, hn, hstream]] at hx
          exact absurd hx (List.not_mem_nil x)
        | some r =>
          by_cases hk : r.2 = k
          · have hpend := pendKeys_consumed hn hk
            have hp1 := (hstrict' s' hs').1
            rw [hpend] at hp1
            exact (List.pairwise_cons.mp hp1).1 x hx
          · rw [consume_skip_ne hn hk] at hx
            have hpend : pendKeys s' = r.2 :: pendKeys (consume r.2 s') :=
              pendKeys_consumed hn rfl
            have hmin : strLt r.2 k = false := minKeyOf_lb hm s' hs' r hn
            have hkr : strLt k r.2 = true := by
              rcases strLt_tri k r.2 with h | h | h
              · exact h
              · exact absurd h (by simp [hmin])
              · exact absurd h.symm hk
            rw [hpend] at hx
            rcases List.mem_cons.mp hx with rfl | hx
            · exact hkr
            · have hp1 := (hstrict' s' hs').1
              rw [hpend] at hp1
              exact strLt_trans hkr ((List.pairwise_cons.mp hp1).1 x hx)
      obtain ⟨hcomp, hpair, hlowk, hiff⟩ :=
        ih (ss'.map (consume k)) (some k) hfuel'' hd'' hstrict'' hlow''
      obtain ⟨s₀, hs₀, r₀, hn₀, hk₀⟩ := minKeyOf_mem hm
      have hkmem : k ∈ pendKeys s₀ := by
        rw [pendKeys_consumed hn₀ hk₀]
        exact List.mem_cons_self _ _
      refine ⟨hcomp, ?_, ?_, ?_⟩
      · simp only [List.map_cons]
        exact List.pairwise_cons.mpr ⟨fun x hx => hlowk k rfl x hx, hpair⟩
      · intro m hmeq x hx
        simp only [List.map_cons, List.mem_cons] at hx
        have hmk : strLt m k = true := hlow' m hmeq s₀ hs₀ k hkmem
        rcases hx with rfl | hx
        · exact hmk
        · exact strLt_trans hmk (hlowk k rfl x hx)
      · intro x
        simp only [List.map_cons, List.mem_cons]
        rw [hiff x, pend_exists_pull hp]
        constructor
        · rintro (rfl | ⟨t, ht, hx⟩)
          · exact ⟨s₀, hs₀, hkmem⟩
          · obtain ⟨s', hs', rfl⟩ := List.mem_map.mp ht
            exact ⟨s', hs', mem_pendKeys_consume.mpr (Or.inr hx)⟩
        · rintro ⟨s', hs', hx⟩
          rcases (@mem_pendKeys_consume k x s').mp hx with ⟨_, rfl⟩ | hx'
          · exact Or.inl rfl
          · exact Or.inr ⟨consume k s', List.mem_map.mpr ⟨s', hs', rfl⟩, hx'⟩

/-! ### Finalization, conservation and classifier field lemmas -/

instance : IsTrans String keyLeP :=
  ⟨fun _ _ _ h₁ h₂ => strLt_false_trans h₁ h₂⟩

/-- At the point where `joinkey === null`, every source is done with nothing
buffered and nothing unread: the assertion at auditcounts.js:421-422 holds. -/
theorem finalize_all_done {ss ss' : List Src} (hd : ∀ s ∈ ss, DInv s)
    (hp : pullAll ss = some ss') (hm : minKeyOf ss' = none) :
    ∀ s' ∈ ss', s'.done = true ∧ s'.next = none ∧ s'.stream = [] := by
  intro s' hs'
  have hnone : s'.next = none := minKeyOf_none hm s' hs'
  have hdone : s'.done = true := by
    rcases pullAll_post hp s' hs' with hsome | hdone
    · rw [hnone] at hsome
      exact absurd hsome (by simp)
    · exact hdone
  obtain ⟨_, hstream⟩ := pullAll_DInv hd hp s' hs' hdone
  exact ⟨hdone, hnone, hstream⟩

theorem srcSize_consume_slot (k : String) (s : Src) :
    srcSize (consume k s) + (slotOf k s).toList.length = srcSize s := by
  cases hn : s.next with
  | none =>
    rw [consume_skip_none hn]
    simp [slotOf, hn]
  | some r =>
    by_cases hk : r.2 = k
    · rw [consume_consumed hn hk]
      simp [slotOf, srcSize, hn, hk]
    · rw [consume_skip_ne hn hk]
      simp [slotOf, hn, hk]

/-- Records are conserved by an emission: what leaves the per-source buffers
is exactly what appears in the row's slots. -/
theorem emit_conservation (k : String) : ∀ ss : List Src,
    totalPending (ss.map (consume k)) +
      ((ss.map (slotOf k)).filterMap id).length = totalPending ss := by
  intro ss
  induction ss with
  | nil => rfl
  | cons s ms ih =>
    have hcons := srcSize_consume_slot k s
    simp only [totalPending] at ih
    simp only [List.map_cons, totalPending, List.sum_cons]
    cases hs : slotOf k s with
    | none =>
      rw [hs] at hcons
      simp only [Option.toList_none, List.length_nil, Nat.add_zero] at hcons
      rw [List.filterMap_cons_none (show id (none : Option SRec) = none from rfl)]
      omega
    | some r =>
      rw [hs] at hcons
      simp only [Option.toList_some, List.length_cons, List.length_nil] at hcons
      rw [List.filterMap_cons_some (show id (some r) = some r from rfl)]
      simp only [List.length_cons]
      omega

/-- Whenever `emitRow` pushes a row, its fields are the key token as written,
the raw count or 0, and the reported count or 0. -/
theorem emitRow_fields (v : Bool) (d : String) (a b : Option Int) (r : OutRow)
    (h : emitRow v d a b = .row r) :
    r.dirname = d ∧ r.ndirents = jsOr0 a ∧ r.nreported = jsOr0 b := by
  cases a with
  | none =>
    cases b with
    | none => exact absurd h (by simp [emitRow])
    | some c =>
      simp only [emitRow, EmitResult.row.injEq] at h
      subst h
      exact ⟨rfl, rfl, rfl⟩
  | some rc =>
    cases b with
    | none =>
      simp only [emitRow, EmitResult.row.injEq] at h
      subst h
      exact ⟨rfl, rfl, rfl⟩
    | some c =>
      simp only [emitRow] at h
      by_cases hne : c ≠ rc
      · rw [if_pos hne] at h
        simp only [EmitResult.row.injEq] at h
        subst h
        exact ⟨rfl, rfl, rfl⟩
      · rw [if_neg hne] at h
        cases v with
        | true =>
          simp only [if_true, EmitResult.row.injEq] at h
          subst h
          exact ⟨rfl, rfl, rfl⟩
        | false => exact absurd h (by simp)

/-! ### Whole-run corollaries -/

theorem pendKeys_initSrc (l : List SRec) :
    pendKeys (initSrc l) = l.map Prod.snd := by
  simp [pendKeys, initSrc]

theorem initSrc_DInv (l : List SRec) : DInv (initSrc l) := by
  intro hd
  simp [initSrc] at hd

/-- A run over a source whose keys descend somewhere ends fatally. -/
theorem runJoin_fatal_of_descent {inputs : List (List SRec)}
    (h : ∃ l ∈ inputs, ¬ List.Pairwise keyLeP (l.map Prod.snd)) :
    (runJoin inputs).2 = .fatal := by
  obtain ⟨l, hl, hnp⟩ := h
  unfold runJoin
  apply runAux_fatal
  · omega
  · intro s hs
    obtain ⟨l', _, rfl⟩ := List.mem_map.mp hs
    exact initSrc_DInv l'
  · refine ⟨initSrc l, List.mem_map.mpr ⟨l, hl, rfl⟩, Or.inl ?_⟩
    rw [pendKeys_initSrc]
    intro hch
    exact hnp (List.chain'_iff_pairwise.mp hch)

/-- A run over individually non-decreasing sources never ends fatally. -/
theorem runJoin_not_fatal_of_sorted {inputs : List (List SRec)}
    (h : ∀ l ∈ inputs, List.Pairwise keyLeP (l.map Prod.snd)) :
    (runJoin inputs).2 ≠ .fatal := by
  unfold runJoin
  apply runAux_lax
  intro s hs
  obtain ⟨l, hl, rfl⟩ := List.mem_map.mp hs
  constructor
  · rw [pendKeys_initSrc]
    exact h l hl
  · intro L hL
    simp [initSrc] at hL

/-- The number of pulled-but-not-yet-joined records a source holds. -/
def heldRecords (s : Src) : Nat := s.next.toList.length

/-! ## The claims -/

/-- C1: for every joined row with two slots, at least one of which is
populated, `emitRow` produces exactly the status of the spec's decision
table, applied in order: both present and equal gives `count okay` (emitted
only in verbose mode, otherwise suppressed); both present and different
gives `error: count mismatch`; raw alone gives `warn: missing optimized
count` when 0 and `error: count mismatch (no optimized count)` otherwise;
reported alone gives `warn: leaked optimized count` when 0 and
`error: count mismatch (no entries)` otherwise. -/
theorem c1_classifier_decision_table :
    ∀ (v : Bool) (d : String) (raw rep : Option Int),
      raw ≠ none ∨ rep ≠ none →
      emitRow v d raw rep = specClassify v d raw rep := by
  intro v d raw rep h
  cases raw with
  | none =>
    cases rep with
    | none => rcases h with h | h <;> exact absurd rfl h
    | some c =>
      simp only [emitRow, specClassify]
      by_cases hc : c = 0
      · rw [if_pos hc, if_pos hc]
      · rw [if_neg hc, if_neg hc]
  | some rc =>
    cases rep with
    | none =>
      simp only [emitRow, specClassify]
      by_cases hc : rc = 0
      · rw [if_pos hc, if_pos hc]
      · rw [if_neg hc, if_neg hc]
    | some c =>
      simp only [emitRow, specClassify]
      by_cases heq : rc = c
      · subst heq
        rw [if_neg (by simp), if_pos rfl]
      · rw [if_pos (fun hh => heq hh.symm), if_neg heq]

theorem c1_classifier_decision_table_witness :
    ((some 5 : Option Int) ≠ none ∨ (none : Option Int) ≠ none) ∧
      emitRow false "d" (some 5) none = specClassify false "d" (some 5) none :=
  ⟨Or.inl (by decide),
    c1_classifier_decision_table false "d" (some 5) none (Or.inl (by decide))⟩

/-- C2 counterexample: on the spec's end-to-end scenario the row for key `b`
(raw 5, reported 0 — both sides present) carries status
`error: count mismatch`, not the claimed
`error: count mismatch (no optimized count)`. -/
theorem c2_counterexample :
    pipelineRun false ["3 \"a\"", "5 \"b\"", "2 \"c\""]
        ["3 \"a\"", "0 \"b\"", "7 \"d\""] =
      (some [⟨"\"b\"", 5, 0, "error: count mismatch"⟩,
        ⟨"\"c\"", 2, 0, "error: count mismatch (no optimized count)"⟩,
        ⟨"\"d\"", 0, 7, "error: count mismatch (no entries)"⟩], .complete) ∧
    ("error: count mismatch" : String) ≠
      "error: count mismatch (no optimized count)" := by
  decide

/-- C2 amended: on inputs A = 3 "a", 5 "b", 2 "c" and B = 3 "a", 0 "b",
7 "d", the non-verbose pipeline suppresses `a` (counts equal) and emits
exactly: `b` with ndirents 5, nreported 0, status `error: count mismatch`
(both sides are present for `b`, so the mismatch is the plain one);
`c` with 2, 0, `error: count mismatch (no optimized count)`; and `d` with
0, 7, `error: count mismatch (no entries)`. -/
theorem c2_pipeline_scenario :
    pipelineRun false ["3 \"a\"", "5 \"b\"", "2 \"c\""]
        ["3 \"a\"", "0 \"b\"", "7 \"d\""] =
      (some [⟨"\"b\"", 5, 0, "error: count mismatch"⟩,
        ⟨"\"c\"", 2, 0, "error: count mismatch (no optimized count)"⟩,
        ⟨"\"d\"", 0, 7, "error: count mismatch (no entries)"⟩], .complete) := by
  decide

/-- C3 counterexample: lines whose first field carries a sign or a fractional
part are accepted as records, not rejected with a parse warning. -/
theorem c3_counterexample :
    splitLine "+5 \"x\"" = .record (5, "\"x\"") ∧
    splitLine "5.0 \"x\"" = .record (5, "\"x\"") ∧
    splitLine "-3 \"x\"" = .record (-3, "\"x\"") := by
  decide

/-- C3 amended: the parser accepts field 1 iff `parseInt(field, 10)` is not
NaN and the field's JS numeric value (`ToNumber`) equals that integer — the
loose comparison `field != count` converts the string to a number, not the
number to a string.  Every canonical non-negative integer is accepted with
its decimal value, but non-canonical spellings of the same number — leading
zeros, an explicit sign, a zero fractional part — are accepted too rather
than rejected. -/
theorem c3_integer_field_check :
    (∀ (s : String) (n : Int), fieldIntOk s = some n ↔
       (jsParseInt10 s = some n ∧ jsNumEqInt (jsToNumber s) n = true)) ∧
    (∀ s : String, canonicalNat s.data = true →
       fieldIntOk s = some ((digitsVal s.data : Int))) ∧
    fieldIntOk "05" = some 5 ∧ fieldIntOk "+5" = some 5 ∧
    fieldIntOk "5.0" = some 5 ∧ fieldIntOk "-3" = some (-3) := by
  refine ⟨?_, ?_, by decide, by decide, by decide, by decide⟩
  · intro s n
    simp only [fieldIntOk, fieldIntOkCore, jsParseInt10, jsToNumber]
    cases hpi : jsParseIntCore s.data with
    | none => simp
    | some m =>
      show (if jsNumEqInt (jsToNumberCore s.data) m = true then some m else none)
          = some n ↔ some m = some n ∧ jsNumEqInt (jsToNumberCore s.data) n = true
      by_cases hq : jsNumEqInt (jsToNumberCore s.data) m = true
      · rw [if_pos hq]
        constructor
        · intro hmn
          obtain rfl : m = n := Option.some.inj hmn
          exact ⟨rfl, hq⟩
        · rintro ⟨hmn, _⟩
          exact hmn
      · rw [if_neg hq]
        constructor
        · intro hf
          exact absurd hf (by simp)
        · rintro ⟨hmn, hqn⟩
          obtain rfl : m = n := Option.some.inj hmn
          exact absurd hqn hq
  · intro s h
    simp only [canonicalNat, Bool.and_eq_true, Bool.not_eq_true'] at h
    obtain ⟨⟨hne, hall⟩, _⟩ := h
    refine fieldIntOkCore_all_digits ?_ (List.all_eq_true.mp hall)
    intro he
    rw [he] at hne
    simp at hne

theorem c3_integer_field_check_witness :
    canonicalNat "12".data = true ∧
      fieldIntOk "12" = some ((digitsVal "12".data : Int)) :=
  ⟨by decide, c3_integer_field_check.2.1 "12" (by decide)⟩

/-- C4 counterexample: the classifier's output `dirname` is the key token in
its serialized form, not its JSON-decoded value: for the key token `"a"`
(three characters, quotes included) the output record carries the serialized
token, while the decoded key string is `a`, a different string. -/
theorem c4_counterexample :
    auditTransform false ("\"a\"", [some (5, "\"a\""), none]) =
      .row ⟨"\"a\"", 5, 0, "error: count mismatch (no optimized count)"⟩ ∧
    jsonDecodeString "\"a\"" = some "a" ∧ ("\"a\"" : String) ≠ "a" := by
  decide

/-- C4 amended: for every classified row the emitted record has `dirname`
equal to the key token exactly as written in the input (its serialized
literal form — the pipeline never decodes it), `ndirents` equal to the raw
count or 0 when the raw slot is absent, and `nreported` equal to the
reported count or 0 when the reported slot is absent. -/
theorem c4_output_record_fields :
    ∀ (v : Bool) (k : String) (s0 s1 : Option SRec) (r : OutRow),
      auditTransform v (k, [s0, s1]) = .row r →
      r.dirname = k ∧ r.ndirents = jsOr0 (s0.map Prod.fst) ∧
        r.nreported = jsOr0 (s1.map Prod.fst) := by
  intro v k s0 s1 r h
  exact emitRow_fields v k (s0.map Prod.fst) (s1.map Prod.fst) r h

theorem c4_output_record_fields_witness :
    auditTransform false ("\"b\"", [some (5, "\"b\""), some (0, "\"b\"")]) =
        .row ⟨"\"b\"", 5, 0, "error: count mismatch"⟩ ∧
      ((OutRow.mk "\"b\"" 5 0 "error: count mismatch").dirname = "\"b\"" ∧
        (OutRow.mk "\"b\"" 5 0 "error: count mismatch").ndirents =
          jsOr0 ((some ((5, "\"b\"") : SRec)).map Prod.fst) ∧
        (OutRow.mk "\"b\"" 5 0 "error: count mismatch").nreported =
          jsOr0 ((some ((0, "\"b\"") : SRec)).map Prod.fst)) :=
  ⟨by decide,
    c4_output_record_fields false "\"b\"" (some (5, "\"b\"")) (some (0, "\"b\""))
      ⟨"\"b\"", 5, 0, "error: count mismatch"⟩ (by decide)⟩

/-- C5: for every set of well-formed, individually sorted inputs (each source
non-decreasing with at most one record per key), the merge engine completes,
emits a row for a key iff the key appears in at least one input, never emits
a key twice, and emits the keys in strictly increasing byte order. -/
theorem c5_full_outer_join :
    ∀ inputs : List (List SRec),
      (∀ l ∈ inputs, List.Pairwise keyLeP (l.map Prod.snd) ∧
        (l.map Prod.snd).Nodup) →
      (runJoin inputs).2 = .complete ∧
        List.Pairwise keyLtP ((runJoin inputs).1.map Prod.fst) ∧
        ((runJoin inputs).1.map Prod.fst).Nodup ∧
        (∀ x, x ∈ (runJoin inputs).1.map Prod.fst ↔
          ∃ l ∈ inputs, x ∈ l.map Prod.snd) := by
  intro inputs hsorted
  have hstricti : ∀ l ∈ inputs, List.Pairwise keyLtP (l.map Prod.snd) := by
    intro l hl
    obtain ⟨hle, hnd⟩ := hsorted l hl
    refine (hle.and hnd).imp ?_
    rintro a b ⟨h1, h2⟩
    rcases strLt_tri a b with h | h | h
    · exact h
    · exact absurd h (by simp [keyLeP] at h1; simp [h1])
    · exact absurd h h2
  unfold runJoin
  obtain ⟨hcomp, hpair, _, hiff⟩ :=
    runAux_strict (totalPending (inputs.map initSrc) + 1) (inputs.map initSrc)
      none (by omega)
      (by
        intro s hs
        obtain ⟨l, _, rfl⟩ := List.mem_map.mp hs
        exact initSrc_DInv l)
      (by
        intro s hs
        obtain ⟨l, hl, rfl⟩ := List.mem_map.mp hs
        refine ⟨?_, ?_⟩
        · rw [pendKeys_initSrc]
          exact hstricti l hl
        · intro L hL
          simp [initSrc] at hL)
      (by intro m hm; exact absurd hm (by simp))
  refine ⟨hcomp, hpair, ?_, ?_⟩
  · refine hpair.imp ?_
    intro a b hab
    intro he
    subst he
    rw [keyLtP, strLt_irrefl] at hab
    exact Bool.false_ne_true hab
  · intro x
    rw [hiff x]
    constructor
    · rintro ⟨s, hs, hx⟩
      obtain ⟨l, hl, rfl⟩ := List.mem_map.mp hs
      exact ⟨l, hl, by rwa [pendKeys_initSrc] at hx⟩
    · rintro ⟨l, hl, hx⟩
      exact ⟨initSrc l, List.mem_map.mpr ⟨l, hl, rfl⟩, by rwa [pendKeys_initSrc]⟩

theorem c5_full_outer_join_witness :
    (runJoin [[((3 : Int), "\"a\""), (5, "\"b\"")], [((7 : Int), "\"b\"")]]).2 =
        .complete ∧
      ((runJoin [[((3 : Int), "\"a\""), (5, "\"b\"")],
        [((7 : Int), "\"b\"")]]).1.map Prod.fst).Nodup :=
  ⟨(c5_full_outer_join _ (by decide)).1, (c5_full_outer_join _ (by decide)).2.2.1⟩

/-- C6: if any source delivers a record whose key is below a key that source
already contributed to an emitted row (equivalently: its key sequence is not
non-decreasing — each pull is checked against the key of that source's
previously joined record), the run's terminal outcome is the fatal
order-violation error, not a truncated success; the model returns no rows at
or after the violating pull. -/
theorem c6_fatal_on_disorder :
    ∀ inputs : List (List SRec),
      (∃ l ∈ inputs, ¬ List.Pairwise keyLeP (l.map Prod.snd)) →
      (runJoin inputs).2 = .fatal :=
  fun _ h => runJoin_fatal_of_descent h

theorem c6_fatal_on_disorder_witness :
    (runJoin [[((1 : Int), "\"b\""), (1, "\"a\"")]]).2 = .fatal :=
  c6_fatal_on_disorder _ (by decide)

/-- C7: completion is signalled only when every source has ended with no
buffered or unread record remaining: the `done` invariant holds initially
and is preserved by every pull and every emission, and at any finalization
point (a successful pull round with no buffered key) the assertion
`0 == sources.filter(not done).length` of auditcounts.js:421-422 holds, with
every source's buffer and stream empty.  In the model the terminal marker is
produced exactly once, at that point. -/
theorem c7_completion_assert :
    (∀ l : List SRec, DInv (initSrc l)) ∧
    (∀ s s' : Src, pullSrc s = some s' → DInv s → DInv s') ∧
    (∀ (k : String) (ss : List Src) (t : Src), t ∈ (emitJoin k ss).2 →
       (∀ s ∈ ss, DInv s) → DInv t) ∧
    (∀ ss ss' : List Src, (∀ s ∈ ss, DInv s) → pullAll ss = some ss' →
       minKeyOf ss' = none →
       (ss'.filter (fun s => !s.done)).length = 0 ∧
         ∀ s' ∈ ss', s'.next = none ∧ s'.stream = []) := by
  refine ⟨initSrc_DInv, ?_, ?_, ?_⟩
  · intro s s' hp hd
    exact (pullSrc_facts hp).2.2.2.2 hd
  · intro k ss t ht hd
    rw [emitJoin_eq] at ht
    obtain ⟨s, hs, rfl⟩ := List.mem_map.mp ht
    exact consume_DInv k (hd s hs)
  · intro ss ss' hd hp hm
    have hall := finalize_all_done hd hp hm
    constructor
    · rw [List.length_eq_zero, List.filter_eq_nil_iff]
      intro s' hs'
      simp [(hall s' hs').1]
    · intro s' hs'
      exact ⟨(hall s' hs').2.1, (hall s' hs').2.2⟩

theorem c7_completion_assert_witness :
    pullAll [initSrc []] = some [(⟨[], none, none, true⟩ : Src)] ∧
      (([(⟨[], none, none, true⟩ : Src)].filter (fun s => !s.done)).length = 0) :=
  ⟨by decide,
    (c7_completion_assert.2.2.2 [initSrc []] [⟨[], none, none, true⟩]
      (fun s hs => by
        obtain rfl : s = initSrc [] := by simpa using hs
        exact initSrc_DInv [])
      (by decide) (by decide)).1⟩

/-- C8 counterexample: the line `05 "a"` — whose first field is a
non-canonical integer — is not dropped with a warning: it parses to the
record `(5, "a")` and the warning count stays 0. -/
theorem c8_counterexample :
    splitLine "05 \"a\"" = .record (5, "\"a\"") ∧
    runSplitStats ["05 \"a\""] = ([(5, "\"a\"")], 0) := by
  decide

/-- C8 amended: for every input line the parser either pushes one record or
emits exactly one recoverable warning with a reason code and produces no
record for that line (the rejection categories being: wrong field count, a
first field whose parseInt value is NaN or differs from its JS numeric
value, and a malformed or non-string JSON literal — a merely non-canonical
integer with the same numeric value, such as `05`, is accepted); a run's
warning count is exactly the number of rejected lines, the records are
exactly the accepted lines' records in order (so processing continues past
every warning, and warnings never terminate the run); in particular
`5 bogus` yields one `invalid JSON` warning and no record. -/
theorem c8_warning_behavior :
    (∀ lines : List String,
       runSplitStats lines =
         (lines.filterMap recOfLine,
           lines.countP (fun l => (splitLine l).isWarn))) ∧
    (∀ line : String, (splitLine line).isWarn = true ↔ recOfLine line = none) ∧
    splitLine "5 bogus" = .warn .invalidJSON ∧
    runSplitStats ["5 bogus"] = ([], 1) := by
  refine ⟨?_, ?_, by decide, by decide⟩
  · intro lines
    induction lines with
    | nil => rfl
    | cons line rest ih =>
      simp only [runSplitStats, ih, List.filterMap_cons, List.countP_cons, recOfLine]
      cases hs : splitLine line with
      | record r => simp [SplitResult.isWarn]
      | warn k => simp [SplitResult.isWarn]
  · intro line
    cases hs : splitLine line with
    | record r => simp [recOfLine, hs, SplitResult.isWarn]
    | warn k => simp [recOfLine, hs, SplitResult.isWarn]

/-- C9: the engine holds at most one pulled-but-not-yet-joined record per
source — the buffer is a single optional slot, the pull loop never touches a
source whose slot is full, pulling moves records without duplication or
loss, and an emission removes from the buffers exactly the records that
appear in the emitted row's slots. -/
theorem c9_single_buffer :
    (∀ s : Src, heldRecords s ≤ 1) ∧
    (∀ (s s' : Src) (r : SRec), s.next = some r → pullSrc s = some s' → s' = s) ∧
    (∀ ss ss' : List Src, pullAll ss = some ss' →
       totalPending ss' = totalPending ss) ∧
    (∀ (k : String) (ss : List Src),
       totalPending ((emitJoin k ss).2) +
         (((emitJoin k ss).1.2).filterMap id).length = totalPending ss) := by
  refine ⟨?_, ?_, ?_, ?_⟩
  · intro s
    cases hn : s.next <;> simp [heldRecords, hn]
  · intro s s' r hn hp
    rw [pullSrc_of_buffered hn] at hp
    exact (Option.some.inj hp).symm
  · exact fun _ _ h => pullAll_totalPending h
  · intro k ss
    rw [emitJoin_eq]
    exact emit_conservation k ss

theorem c9_single_buffer_witness :
    (⟨[], some ((1 : Int), "\"a\""), none, false⟩ : Src).next = some (1, "\"a\"") ∧
      pullSrc ⟨[], some ((1 : Int), "\"a\""), none, false⟩ =
        some ⟨[], some (1, "\"a\""), none, false⟩ ∧
      (⟨[], some ((1 : Int), "\"a\""), none, false⟩ : Src) =
        ⟨[], some (1, "\"a\""), none, false⟩ :=
  ⟨rfl, rfl, c9_single_buffer.2.1 _ _ _ rfl rfl⟩

/-- C10: the engine raises the fatal order-violation error iff some source's
delivered keys strictly descend somewhere — a pulled key merely equal to the
source's previously joined key is accepted (and yields a second row with the
same key, as the duplicate-key run shows), and the first record pulled from
a source never trips the check, because the JS comparison of a string key
against the initial null `src_last_join` is always false. -/
theorem c10_order_violation_iff :
    (∀ inputs : List (List SRec),
       ((runJoin inputs).2 = .fatal ↔
         ∃ l ∈ inputs, ¬ List.Pairwise keyLeP (l.map Prod.snd))) ∧
    runJoin [[((1 : Int), "\"k\""), (2, "\"k\"")]] =
      ([("\"k\"", [some (1, "\"k\"")]), ("\"k\"", [some (2, "\"k\"")])],
        .complete) := by
  refine ⟨?_, by decide⟩
  intro inputs
  constructor
  · intro hf
    by_contra hnp
    push_neg at hnp
    exact runJoin_not_fatal_of_sorted hnp hf
  · exact runJoin_fatal_of_descent

end Auditcounts
